import Mathlib

/-! Verification development for the static-site template preprocessor
`web/build.py` of the realmview repository.

Modelling conventions:
* Python strings are `List Char`; `chars` converts a Lean string literal.
* Python `dict[str, str]` values are association lists where, mirroring
  insertion-order overwrite semantics, the *last* binding for a key wins.
* Python exceptions are the explicit error type `Err`, threaded with
  `Except`; `print(...); exit(code)` is modelled as `Err.systemExit` with
  the printed message.
* Unbounded `while` loops and the mutually recursive substitution engine
  carry an explicit fuel parameter; a `none` result means the computation
  was still running when the fuel ran out (divergence in the limit).
* The regular expressions of `build.py` are embedded as explicit
  backtracking scanners with the same leftmost-position, ordered-alternative
  semantics as Python `re`.
-/

namespace Build

/-- Python strings are modelled as lists of characters. -/
abbrev LC := List Char

/-- A Python `dict[str, str]` (the Parameter Set): association list, the
last binding of a key is the authoritative one. -/
abbrev ParamSet := List (LC × LC)

/-- Characters of a Lean string literal; used to transliterate the Python
string literals of `build.py`. -/
def chars (s : String) : List Char := s.toList

/-- Python regex `\s` on ASCII, which is also the character set stripped by
`str.strip()`: space, tab, newline, vertical tab, form feed, carriage
return. -/
def isSpacePy (c : Char) : Bool :=
  c == ' ' || c == '\t' || c == '\n' || c == '\x0b' || c == '\x0c' || c == '\r'

/-- The character class `IDENTIFIER_CHARACTERS = [a-zA-Z0-9_]` of
`build.py`. -/
def isIdentChar (c : Char) : Bool :=
  c.isAlpha || c.isDigit || c == '_'

/-- The character class `FULL_CHARACTERS = [a-zA-Z0-9_.:@/\-]` of
`build.py`. -/
def isFullChar (c : Char) : Bool :=
  isIdentChar c || c == '.' || c == ':' || c == '@' || c == '/' || c == '-'

/-- The character class `[A-Z_]` used for `IFDEF` arguments and bare
`{{ KEY }}` placeholder keys. -/
def isCondArgChar (c : Char) : Bool :=
  ('A' ≤ c && c ≤ 'Z') || c == '_'

/-- Python `str.strip()`: drop leading and trailing whitespace. -/
def pyStrip (l : LC) : LC :=
  ((l.dropWhile isSpacePy).reverse.dropWhile isSpacePy).reverse

/-- Python `str.upper()` on the ASCII identifier characters that can occur
in keyword-argument keys. -/
def pyUpper (l : LC) : LC := l.map Char.toUpper

/-- Decidable "is a prefix of" on character lists. -/
def isPrefixL : LC → LC → Bool
  | [], _ => true
  | _ :: _, [] => false
  | a :: as, b :: bs => a == b && isPrefixL as bs

/-- Decidable "occurs as a contiguous substring of". -/
def containsL (pat : LC) : LC → Bool
  | [] => isPrefixL pat []
  | s@(_ :: rest) => isPrefixL pat s || containsL pat rest

/-- Python `str.replace(old, new, 1)`: replace the leftmost occurrence of
`pat` (if any). -/
def replace1 (pat repl : LC) : LC → LC
  | [] => []
  | c :: rest =>
    if isPrefixL pat (c :: rest) then repl ++ (c :: rest).drop pat.length
    else c :: replace1 pat repl rest

/-- Worker for `replaceAll`, structurally recursive on a fuel that bounds
the number of characters still to be scanned (each step consumes at least
one character, so fuel `s.length` is exact). -/
def replaceAllFuel (pat repl : LC) : Nat → LC → LC
  | 0, s => s
  | _, [] => []
  | fuel + 1, c :: rest =>
    if pat ≠ [] ∧ isPrefixL pat (c :: rest) then
      repl ++ replaceAllFuel pat repl fuel ((c :: rest).drop pat.length)
    else c :: replaceAllFuel pat repl fuel rest

/-- Python `str.replace(old, new)` with a nonempty `old`: replace every
(leftmost-first, non-overlapping) occurrence of `pat`. -/
def replaceAll (pat repl s : LC) : LC := replaceAllFuel pat repl s.length s

/-- Last-binding-wins lookup in a Parameter Set, i.e. Python `d[k]` /
`d.get(k)` for a dict built by repeated insertion. -/
def dictGet (d : ParamSet) (k : LC) : Option LC :=
  (d.reverse.find? (fun e => e.1 == k)).map (·.2)

/-- Python `k in d`. -/
def hasKeyD (d : ParamSet) (k : LC) : Bool :=
  d.any (fun e => e.1 == k)

/-- Python `str.split(sep)` for a one-character separator (keeps empty
fields). -/
def splitOnChar (sep : Char) : LC → List LC
  | [] => [[]]
  | c :: rest =>
    let r := splitOnChar sep rest
    if c == sep then [] :: r
    else
      match r with
      | h :: t => (c :: h) :: t
      | [] => [[c]]

/-- Python exceptions raised (or exits performed) by `build.py`.
`systemExit msg` models `print(msg); exit(code)`. -/
inductive Err where
  | valueError (msg : LC)
  | keyError (key : LC)
  | fileNotFound (file : LC)
  | typeError (msg : LC)
  | systemExit (msg : LC)
deriving DecidableEq

deriving instance DecidableEq for Except

/-! ### Block reader (`read_block`, `block_contents`) -/

/-- The scanning loop of `read_block`: starting from state
(`started`, `n_braces`), consume characters while
`n_braces or not started` holds, incrementing the depth on `{` and
decrementing it on `}`, and marking the block started when the depth
reaches 2.  Returns the number of characters consumed together with the
final depth. -/
def readBlockLoop : LC → Bool → Int → Nat × Int
  | [], _, n => (0, n)
  | c :: rest, started, n =>
    if n != 0 || !started then
      let n' : Int := if c == '\x7b' then n + 1 else if c == '\x7d' then n - 1 else n
      let started' := started || n' == 2
      let r := readBlockLoop rest started' n'
      (r.1 + 1, r.2)
    else (0, n)

/-- `read_block(start, html)`: scan forward from `start` with a brace-depth
counter; raise `ValueError("Unterminated block.")` when the scan ends with
nonzero depth, otherwise return the scanned span `html[start:i]`. -/
def read_block (start : Nat) (html : LC) : Except Err LC :=
  let r := readBlockLoop (html.drop start) false 0
  if r.2 ≠ 0 then .error (.valueError (chars ("Unterminated block.")))
  else .ok ((html.drop start).take r.1)

/-- Helper for `block_contents`: `re.sub(r"^[\s\S]*?\{\{", "", block)`
removes everything up to and including the first `{{` (and nothing when no
`{{` occurs). -/
def findOpenSplit : LC → Option LC
  | [] => none
  | [_] => none
  | c :: d :: rest =>
    if c == '\x7b' && d == '\x7b' then some rest
    else findOpenSplit (d :: rest)

/-- `block_contents(block)`: strip the (non-greedy) leading `...{{` prefix
and the final two characters. -/
def block_contents (block : LC) : LC :=
  let s := (findOpenSplit block).getD block
  s.take (s.length - 2)

/-! ### `read_identifier_block` and the preamble search -/

/-- Matcher, at the head of `s`, for `re.escape(ident) + r"\s*\{\{"`. -/
def matchIdentOpenAt (ident : LC) (s : LC) : Bool :=
  isPrefixL ident s &&
    isPrefixL (chars ("\x7b\x7b")) ((s.drop ident.length).dropWhile isSpacePy)

/-- Leftmost position at which `ident` followed by `\s*\{\{` occurs
(`re.search`). -/
def searchIdentOpen (ident : LC) : LC → Option Nat
  | [] => none
  | s@(_ :: rest) =>
    if matchIdentOpenAt ident s then some 0
    else (searchIdentOpen ident rest).map (· + 1)

/-- `read_identifier_block(identifier, html)`. -/
def read_identifier_block (ident : LC) (html : LC) : Except Err LC :=
  match searchIdentOpen ident html with
  | some p => read_block p html
  | none => .error (.valueError (chars ("Missing indentifier: ") ++ ident))

/-! ### Conditional resolver (`IFDEF` / `IFNDEF` / `ELSE`) -/

/-- The two spellings matched by `(?P<cond>IFN?DEF)`. -/
inductive CondKind where
  | cifdef
  | cifndef
deriving DecidableEq, BEq

/-- Literal matcher for `IFN?DEF` at the head of the text (the greedy `N?`
is deterministic because the two spellings differ at their third
character). -/
def matchCondAt : LC → Option (CondKind × LC)
  | 'I' :: 'F' :: 'N' :: 'D' :: 'E' :: 'F' :: r => some (.cifndef, r)
  | 'I' :: 'F' :: 'D' :: 'E' :: 'F' :: r => some (.cifdef, r)
  | _ => none

/-- Does `}}` occur somewhere in the text?  This is exactly when the
non-greedy `[\s\S]*?\}\}` tail of `BLOCK_REGEX` can match. -/
def containsClose : LC → Bool
  | [] => false
  | [_] => false
  | c :: d :: rest => (c == '\x7d' && d == '\x7d') || containsClose (d :: rest)

/-- Matcher for `re.match(r"\s*ELSE\s*\{\{", s)` (used by
`read_ifdef_block`). -/
def matchElseOpen (s : LC) : Bool :=
  match s.dropWhile isSpacePy with
  | 'E' :: 'L' :: 'S' :: 'E' :: r =>
    isPrefixL (chars ("\x7b\x7b")) (r.dropWhile isSpacePy)
  | _ => false

/-- Matcher for the `\s*ELSE\s*\{\{[\s\S]*?\}\}` tail of
`IFDEF_ELSE_REGEX`, used as the backtracking continuation after a candidate
`}}` of the first block. -/
def matchElseTail (s : LC) : Bool :=
  match s.dropWhile isSpacePy with
  | 'E' :: 'L' :: 'S' :: 'E' :: r =>
    match r.dropWhile isSpacePy with
    | '\x7b' :: '\x7b' :: u => containsClose u
    | _ => false
  | _ => false

/-- Backtracking search for the non-greedy `[\s\S]*?\}\}` followed by a
continuation `p`: try each occurrence of `}}` (including overlapping ones)
from left to right, succeeding as soon as `p` accepts the text after it. -/
def lazyCloseThen (p : LC → Bool) : LC → Bool
  | [] => false
  | [_] => false
  | c :: d :: r => (c == '\x7d' && d == '\x7d' && p r) || lazyCloseThen p (d :: r)

/-- Consume one expected literal character. -/
def expectChar (c : Char) : LC → Option LC
  | [] => none
  | d :: rest => if d == c then some rest else none

/-- Matcher for `IFDEF_REGEX` (`withElse = false`) or `IFDEF_ELSE_REGEX`
(`withElse = true`) anchored at the head of `s`: the literal condition,
`(`, the greedy `[A-Z_]+` argument, `)`, greedy `\s*`, the literal `{{`,
and finally the (lazy) block tail — with, in the `ELSE` form, the
backtracking continuation for `\s*ELSE\s*\{\{[\s\S]*?\}\}`.  Returns the
`cond` and `arg` groups. -/
def matchIfdefAt (withElse : Bool) (s : LC) : Option (CondKind × LC) :=
  (matchCondAt s).bind (fun ct =>
    (expectChar '(' ct.2).bind (fun u =>
      let arg := u.takeWhile isCondArgChar
      if arg.isEmpty then none
      else
        (expectChar ')' (u.drop arg.length)).bind (fun v =>
          (expectChar '\x7b' (v.dropWhile isSpacePy)).bind (fun w1 =>
            (expectChar '\x7b' w1).bind (fun x =>
              if withElse then
                if lazyCloseThen matchElseTail x then some (ct.1, arg) else none
              else if containsClose x then some (ct.1, arg) else none)))))

/-- `re.search` for the `IFDEF` regexes: leftmost match position together
with the `cond` and `arg` groups. -/
def findIfdefMatch (withElse : Bool) : LC → Option (Nat × CondKind × LC)
  | [] => none
  | s@(_ :: rest) =>
    match matchIfdefAt withElse s with
    | some (c, a) => some (0, c, a)
    | none => (findIfdefMatch withElse rest).map (fun r => (r.1 + 1, r.2.1, r.2.2))

/-- `read_ifdef_block(start, html)`: read the `IFDEF ... {{...}}` block,
then, when `\s*ELSE\s*\{\{` follows immediately, the `ELSE` block
(`else_block = ""` otherwise); returns both together with their
concatenation `full`. -/
def read_ifdef_block (start : Nat) (html : LC) : Except Err (LC × LC × LC) :=
  match read_block start html with
  | .error e => .error e
  | .ok if_block =>
    if matchElseOpen (html.drop (start + if_block.length)) then
      match read_block (start + if_block.length) html with
      | .error e => .error e
      | .ok else_block => .ok (if_block, else_block, if_block ++ else_block)
    else .ok (if_block, [], if_block ++ [])

/-- The replacement text selected by one `_process_ifdefs` iteration:
contents of the `if` block when the condition holds, of the `else` block
otherwise, trimmed. -/
def ifdefRepl (kwargs : ParamSet) (cond : CondKind) (arg : LC) (ib eb : LC) : LC :=
  if (cond == CondKind.cifdef && hasKeyD kwargs arg) ||
      (cond == CondKind.cifndef && !hasKeyD kwargs arg) then
    pyStrip (block_contents ib)
  else
    pyStrip (block_contents eb)

/-- The `while m:` loop of `_process_ifdefs`, with explicit fuel: find the
leftmost match, re-read its blocks, replace the first occurrence of the full
matched region by the selected trimmed contents, rescan. -/
def ifdefLoop (withElse : Bool) (kwargs : ParamSet) : Nat → LC → Option (Except Err LC)
  | 0, _ => none
  | fuel + 1, html =>
    match findIfdefMatch withElse html with
    | none => some (.ok html)
    | some (p, cond, arg) =>
      match read_ifdef_block p html with
      | .error e => some (.error e)
      | .ok (ib, eb, full) =>
        ifdefLoop withElse kwargs fuel (replace1 full (ifdefRepl kwargs cond arg ib eb) html)

/-- `process_ifdefs(html, kwargs)`: one pass for `IFDEF_ELSE_REGEX`, then
one for `IFDEF_REGEX`.  The Python loops are unbounded; each pass is run
here with fuel `length + 1`, which is sufficient because every iteration
strictly shrinks the document (the termination theorem below). -/
def process_ifdefs (html : LC) (kwargs : ParamSet) : Option (Except Err LC) :=
  match ifdefLoop true kwargs (html.length + 1) html with
  | some (.ok h1) => ifdefLoop false kwargs (h1.length + 1) h1
  | r => r

example :
    process_ifdefs (chars ("IFDEF(VAR) \x7b\x7b yes \x7d\x7d ELSE \x7b\x7b no \x7d\x7d"))
      [(chars ("VAR"), [])] = some (.ok (chars ("yes"))) := by
  decide

example :
    process_ifdefs (chars ("IFDEF(VAR) \x7b\x7b yes \x7d\x7d ELSE \x7b\x7b no \x7d\x7d"))
      [] = some (.ok (chars ("no"))) := by
  decide

example :
    process_ifdefs
      (chars ("IFDEF(MULTI)\n\t\x7b\x7b\nline one\nline two\n\x7d\x7d\nELSE\n\r\x7b\x7bone line\x7d\x7d"))
      [(chars ("MULTI"), [])] = some (.ok (chars ("line one\nline two"))) := by
  decide

example :
    process_ifdefs
      (chars ("IFDEF(MULTI)\n\t\x7b\x7b\nline one\nline two\n\x7d\x7d\nELSE\n\r\x7b\x7bone line\x7d\x7d"))
      [] = some (.ok (chars ("one line"))) := by
  decide

/-! ### Keyword-argument parsing (`KWARG_ARG_REGEX`, `kwarg_substitution`) -/

/-- The apostrophe character (one of Python's three value-quoting
delimiters `QUOTE_CHARS = "\"'|"`). -/
def squote : Char := Char.ofNat 39

/-- Length of a quoted value `q[^q]*q` whose opening quote `q` has already
been consumed: distance to the closing quote plus the two quotes. -/
def quotedLen (q : Char) (rest : LC) : Option Nat :=
  let k := (rest.takeWhile (fun c => c != q)).length
  match rest.drop k with
  | [] => none
  | _ :: _ => some (k + 2)

/-- Length of the value part `(FC+|"[^"]*"|'[^']*'|\|[^\|]*\|)` of
`KWARG_ARG_REGEX` at the head of the text. -/
def matchKwargValueAt : LC → Option Nat
  | [] => none
  | c :: rest =>
    if isFullChar c then some (((c :: rest).takeWhile isFullChar).length)
    else if c == '"' then quotedLen '"' rest
    else if c == squote then quotedLen squote rest
    else if c == '|' then quotedLen '|' rest
    else none

/-- Length of one `KWARG_ARG_REGEX` term `(IC+\s*=\s*value)` at the head of
the text. -/
def matchKwargArgAt (s : LC) : Option Nat :=
  let key := s.takeWhile isIdentChar
  if key.isEmpty then none
  else
    let t := s.drop key.length
    let sp1 := (t.takeWhile isSpacePy).length
    match t.drop sp1 with
    | '=' :: u =>
      let sp2 := (u.takeWhile isSpacePy).length
      match matchKwargValueAt (u.drop sp2) with
      | some n => some (key.length + sp1 + 1 + sp2 + n)
      | none => none
    | _ => none

/-- `re.finditer(KWARG_ARG_REGEX, s)`: the matched terms, scanning left to
right, non-overlapping.  Every step consumes at least one character, so
fuel `s.length` is exact. -/
def kwargArgTermsFuel : Nat → LC → List LC
  | 0, _ => []
  | _, [] => []
  | fuel + 1, s@(_ :: rest) =>
    match matchKwargArgAt s with
    | some n => s.take n :: kwargArgTermsFuel fuel (s.drop n)
    | none => kwargArgTermsFuel fuel rest

def kwargArgTerms (s : LC) : List LC := kwargArgTermsFuel s.length s

/-- `re.split(r"\s*=\s*", term, 1)`: split at the leftmost
whitespace-padded `=`. -/
def splitEq1 (term : LC) : LC × LC :=
  let k := (term.takeWhile (fun c => c != '=')).length
  if k = term.length then (term, [])
  else
    let key := ((term.take k).reverse.dropWhile isSpacePy).reverse
    ((key : LC), (term.drop (k + 1)).dropWhile isSpacePy)

/-- `remove_quotes(string)`: drop a surrounding quote/pipe pair when the
first character is one of `QUOTE_CHARS` (the empty case cannot arise from a
matched term). -/
def remove_quotes (v : LC) : LC :=
  match v with
  | [] => []
  | c :: rest =>
    if c == '"' || c == squote || c == '|' then rest.dropLast
    else v

/-- The dict comprehension of `kwarg_substitution`: parse the terms of the
stripped argument text, upper-case each key, unquote each value.  Later
bindings overwrite earlier ones (`dictGet` takes the last). -/
def parseKwargs (args : LC) : ParamSet :=
  (kwargArgTerms (pyStrip args)).map (fun term =>
    let kv := splitEq1 term
    (pyUpper kv.1, remove_quotes kv.2))

/-- Matcher at the head of the text for
`KWARG_REGEX = \{\{\s*(?P<k>[A-Z_]+)\s*\}\}`; returns (match length, key
group). -/
def matchKwargPlaceholderAt (s : LC) : Option (Nat × LC) :=
  match s with
  | '\x7b' :: '\x7b' :: t =>
    let sp1 := (t.takeWhile isSpacePy).length
    let u := t.drop sp1
    let key := u.takeWhile isCondArgChar
    if key.isEmpty then none
    else
      let v := u.drop key.length
      let sp2 := (v.takeWhile isSpacePy).length
      match v.drop sp2 with
      | '\x7d' :: '\x7d' :: _ => some (2 + sp1 + key.length + sp2 + 2, key)
      | _ => none
  | _ => none

/-- `re.finditer(KWARG_REGEX, html)`: list of (full match, key group). -/
def kwargPlaceholdersFuel : Nat → LC → List (LC × LC)
  | 0, _ => []
  | _, [] => []
  | fuel + 1, s@(_ :: rest) =>
    match matchKwargPlaceholderAt s with
    | some (n, key) => (s.take n, key) :: kwargPlaceholdersFuel fuel (s.drop n)
    | none => kwargPlaceholdersFuel fuel rest

def kwargPlaceholders (s : LC) : List (LC × LC) := kwargPlaceholdersFuel s.length s

/-! ### The substitution grammar (`SUBSTITUTION_REGEX`) -/

/-- The five macro forms (capture groups of `SUBSTITUTION_REGEX`). -/
inductive SubstAlt where
  | kwargFile (file args : LC)
  | htmlFile (tag args : LC)
  | funcCall (name arg : LC)
  | bareFile (file : LC)
  | rawText (text : LC)
deriving DecidableEq

/-- The closing `\s*\}\}` of the brace-delimited alternatives (the greedy
`\s*` is deterministic because `}` is not whitespace). -/
def closeTail (t : LC) : Option Nat :=
  let sp := (t.takeWhile isSpacePy).length
  match t.drop sp with
  | '\x7d' :: '\x7d' :: _ => some (sp + 2)
  | _ => none

/-- The argument-list group `(KWARG_ARG_REGEX(,\s*|\s*(?=\))))*` of
`KWARG_FILE_REGEX`: returns (consumed length, rest).  An iteration whose
separator fails contributes nothing (its term is not consumed). -/
def kwargArgsLoopFuel : Nat → LC → Nat × LC
  | 0, t => (0, t)
  | fuel + 1, t =>
    match matchKwargArgAt t with
    | none => (0, t)
    | some n =>
      let t' := t.drop n
      match t' with
      | ',' :: u =>
        let sp := (u.takeWhile isSpacePy).length
        let r := kwargArgsLoopFuel fuel (u.drop sp)
        (n + 1 + sp + r.1, r.2)
      | _ =>
        let sp := (t'.takeWhile isSpacePy).length
        match t'.drop sp with
        | ')' :: _ => (n + sp, t'.drop sp)
        | _ => (0, t)

/-- `KWARG_FILE_REGEX` (without the surrounding `{{ }}`) at the head of the
text: `FC+ \( \s* args \)` followed by `\s*\}\}`.  The greedy `\s*` after
the open paren is deterministic: neither an argument term (which starts
with a word character) nor the closing paren can begin with whitespace, so
giving back skipped spaces can never produce a match. -/
def matchKwargFileAt (t : LC) : Option (SubstAlt × Nat) :=
  let f := t.takeWhile isFullChar
  if f.isEmpty then none
  else
    match t.drop f.length with
    | '(' :: u =>
      let sp := (u.takeWhile isSpacePy).length
      let v := u.drop sp
      let r := kwargArgsLoopFuel v.length v
      match r.2 with
      | ')' :: w =>
        match closeTail w with
        | some m => some (.kwargFile f (v.take r.1), f.length + 1 + sp + r.1 + 1 + m)
        | none => none
      | _ => none
    | _ => none

/-- `FUNCTION_REGEX` at the head of the text: `IC+ \( FC* \)` followed by
`\s*\}\}`. -/
def matchFuncAt (t : LC) : Option (SubstAlt × Nat) :=
  let f := t.takeWhile isIdentChar
  if f.isEmpty then none
  else
    match t.drop f.length with
    | '(' :: u =>
      let a := u.takeWhile isFullChar
      match u.drop a.length with
      | ')' :: w =>
        match closeTail w with
        | some m => some (.funcCall f a, f.length + 1 + a.length + 1 + m)
        | none => none
      | _ => none
    | _ => none

/-- `INCLUDE_REGEX` at the head of the text: `FC+` followed by `\s*\}\}`. -/
def matchBareFileAt (t : LC) : Option (SubstAlt × Nat) :=
  let f := t.takeWhile isFullChar
  if f.isEmpty then none
  else
    match closeTail (t.drop f.length) with
    | some m => some (.bareFile f, f.length + m)
    | none => none

/-- `FALLBACK_REGEX = [^{}]+`'s character class. -/
def isRawChar (c : Char) : Bool := c != '\x7b' && c != '\x7d'

/-- `FALLBACK_REGEX` followed by `\s*\}\}` at the head of the text.  The
greedy `[^{}]+` takes the whole brace-free run; shortening it can never
help, because the characters it would give back are not `}` and would then
have to be matched by `\s*\}\}` — so the match succeeds exactly when `}}`
directly follows the run. -/
def matchRawAt (t : LC) : Option (SubstAlt × Nat) :=
  let r := t.takeWhile isRawChar
  if r.isEmpty then none
  else
    match t.drop r.length with
    | '\x7d' :: '\x7d' :: _ => some (.rawText r, r.length + 2)
    | _ => none

/-- The four brace alternatives in the order they appear in
`SUBSTITUTION_REGEXES`. -/
def braceAltsAt (t : LC) : Option (SubstAlt × Nat) :=
  match matchKwargFileAt t with
  | some r => some r
  | none =>
    match matchFuncAt t with
    | some r => some r
    | none =>
      match matchBareFileAt t with
      | some r => some r
      | none => matchRawAt t

/-- Backtracking over the opening `\s*` of `{{\s*(...)\s*}}`: try the
greedy (maximal) number of skipped spaces first, then fewer. -/
def braceSearchSpaces (t : LC) : Nat → Option (SubstAlt × Nat)
  | 0 => braceAltsAt t
  | k + 1 =>
    match braceAltsAt (t.drop (k + 1)) with
    | some (a, n) => some (a, k + 1 + n)
    | none => braceSearchSpaces t k

/-- The `{{\s*(KWARG_FILE|FUNCTION|INCLUDE|FALLBACK)\s*}}` half of
`SUBSTITUTION_REGEX` at the head of the text. -/
def matchBraceAt (s : LC) : Option (SubstAlt × Nat) :=
  match s with
  | '\x7b' :: '\x7b' :: t =>
    (braceSearchSpaces t ((t.takeWhile isSpacePy).length)).map
      (fun r => (r.1, 2 + r.2))
  | _ => none

/-- The tag-name group `([A-Z]|/[A-Z])[a-zA-Z0-9_]+` of `HTML_FILE_REGEX`:
captured tag (with its optional leading slash) and its length. -/
def matchHtmlTagName : LC → Option (LC × Nat)
  | '/' :: c :: u =>
    if c.isUpper then
      let run := u.takeWhile isIdentChar
      if run.isEmpty then none else some ('/' :: c :: run, 2 + run.length)
    else none
  | c :: u =>
    if c.isUpper then
      let run := u.takeWhile isIdentChar
      if run.isEmpty then none else some (c :: run, 1 + run.length)
    else none
  | [] => none

/-- The attribute-list group `(KWARG_ARG_REGEX(\s+|\s*(?=>)))*` of
`HTML_FILE_REGEX`: returns (consumed length, rest). -/
def htmlArgsLoopFuel : Nat → LC → Nat × LC
  | 0, t => (0, t)
  | fuel + 1, t =>
    match matchKwargArgAt t with
    | none => (0, t)
    | some n =>
      let t' := t.drop n
      let sp := (t'.takeWhile isSpacePy).length
      if 1 ≤ sp then
        let r := htmlArgsLoopFuel fuel (t'.drop sp)
        (n + sp + r.1, r.2)
      else
        match t' with
        | '>' :: _ => (n, t')
        | _ => (0, t)

/-- `HTML_FILE_REGEX` at the head of the text:
`<\s*TAG\s*ARGS\s*/?>`. -/
def matchHtmlAt (s : LC) : Option (SubstAlt × Nat) :=
  match s with
  | '<' :: t =>
    let sp0 := (t.takeWhile isSpacePy).length
    match matchHtmlTagName (t.drop sp0) with
    | none => none
    | some (tag, tlen) =>
      let u := (t.drop sp0).drop tlen
      let sp1 := (u.takeWhile isSpacePy).length
      let v := u.drop sp1
      let r := htmlArgsLoopFuel v.length v
      let w := r.2
      let sp2 := (w.takeWhile isSpacePy).length
      match w.drop sp2 with
      | '/' :: '>' :: _ =>
        some (.htmlFile tag (v.take r.1), 1 + sp0 + tlen + sp1 + r.1 + sp2 + 2)
      | '>' :: _ =>
        some (.htmlFile tag (v.take r.1), 1 + sp0 + tlen + sp1 + r.1 + sp2 + 1)
      | _ => none
  | _ => none

/-- `SUBSTITUTION_REGEX` at one position: the brace-delimited alternation
is listed before `HTML_FILE_REGEX` (the two can never both apply, since one
starts with a brace and the other with `<`). -/
def matchSubstAt (s : LC) : Option (SubstAlt × Nat) :=
  match matchBraceAt s with
  | some r => some r
  | none => matchHtmlAt s

/-- `re.search(SUBSTITUTION_REGEX, html)`: leftmost match, as
(position, matched form, match length). -/
def findSubstMatch : LC → Option (Nat × SubstAlt × Nat)
  | [] => none
  | s@(_ :: rest) =>
    match matchSubstAt s with
    | some (a, n) => some (0, a, n)
    | none => (findSubstMatch rest).map (fun r => (r.1 + 1, r.2.1, r.2.2))

/-! ### `strip_comments` -/

/-- Distance to just past the leftmost `*/` (the non-greedy
`[\s\S]*?\*/`). -/
def findBlockCommentEnd : LC → Option Nat
  | '*' :: '/' :: _ => some 2
  | _ :: rest => (findBlockCommentEnd rest).map (· + 1)
  | [] => none

/-- Distance to just past the leftmost `-->`. -/
def findHtmlCommentEnd : LC → Option Nat
  | '-' :: '-' :: '>' :: _ => some 3
  | _ :: rest => (findHtmlCommentEnd rest).map (· + 1)
  | [] => none

/-- `^[ \t]*//.*` at a line-start position: leading blanks, `//`, then the
rest of the line. -/
def matchLineCommentAt (s : LC) : Option Nat :=
  let sp := (s.takeWhile (fun c => c == ' ' || c == '\t')).length
  match s.drop sp with
  | '/' :: '/' :: u => some (sp + 2 + (u.takeWhile (fun c => c != '\n')).length)
  | _ => none

/-- One position of the comment regex
`(/\*[\s\S]*?\*/|^[ \t]*//.*|<!--[\s\S]*?-->)` (alternatives in this
order; the line-comment alternative only applies at a line start). -/
def matchCommentAt (lineStart : Bool) (s : LC) : Option Nat :=
  match s with
  | '/' :: '*' :: u => (findBlockCommentEnd u).map (2 + ·)
  | _ =>
    match (if lineStart then matchLineCommentAt s else none) with
    | some n => some n
    | none =>
      match s with
      | '<' :: '!' :: '-' :: '-' :: u => (findHtmlCommentEnd u).map (4 + ·)
      | _ => none

/-- The `re.sub(..., "", text, flags=re.MULTILINE)` scan of
`strip_comments`: delete each leftmost match and resume after it, tracking
whether the current position is a line start. -/
def stripCommentsFuel : Nat → Bool → LC → LC
  | 0, _, s => s
  | _, _, [] => []
  | fuel + 1, lineStart, c :: rest =>
    match matchCommentAt lineStart (c :: rest) with
    | some n => stripCommentsFuel fuel false ((c :: rest).drop n)
    | none => c :: stripCommentsFuel fuel (c == '\n') rest

/-- `strip_comments(text)`. -/
def strip_comments (s : LC) : LC := stripCommentsFuel s.length true s

/-! ### Custom tag translation -/

/-- The camel-case splitting loop of `html_file_substitution`: accumulate a
current part; each uppercase letter flushes the part (when nonempty) and
starts a new one with its lowercase form. -/
def camelPartsGo (part : LC) : LC → List LC
  | [] => if part.isEmpty then [] else [part]
  | c :: rest =>
    if c.isUpper then
      if part.isEmpty then camelPartsGo [c.toLower] rest
      else part :: camelPartsGo [c.toLower] rest
    else camelPartsGo (part ++ [c]) rest

def camelParts (l : LC) : List LC := camelPartsGo [] l

/-- The three candidate include targets of `html_file_substitution`, in the
order they are tried: `path`, `path + "/start"`, `snake`.  A closing tag
`/Name` is first rewritten to `Name + "End"`. -/
def tagCandidates (tag : LC) : List LC :=
  let processed : LC :=
    match tag with
    | '/' :: t => t ++ chars ("End")
    | _ => tag
  let parts := camelParts processed
  let path := List.intercalate ['/'] parts
  [path, path ++ chars ("/start"), List.intercalate ['_'] parts]

/-! ### `constant` -/

/-- `constant(name)` with the memoized mutable-default dict made an
explicit argument; `table` is the parsed contents of `constants.json`
(values rendered as strings, as `str(constants[name])` does).  Returns the
result, the final memo state, and the number of file reads performed.  When
the memo is empty the file is read (`dict.update`) and the function
recurses, consuming fuel. -/
def constantCall (table : ParamSet) : Nat → ParamSet → LC → Option (Except Err LC × ParamSet × Nat)
  | 0, _, _ => none
  | fuel + 1, memo, name =>
    let name := pyStrip name
    if !memo.isEmpty then
      match dictGet memo name with
      | some v => some (.ok v, memo, 0)
      | none =>
        some (.error (.systemExit (chars ("Missing constant: ") ++ name ++ chars (". Aborting."))),
          memo, 0)
    else
      match constantCall table fuel (memo ++ table) name with
      | none => none
      | some (r, m, k) => some (r, m, k + 1)

/-! ### The environment and the mutually recursive engine -/

/-- The ambient effects of a build run: the include-file tree (a flat
name-to-raw-content map), the parsed `constants.json` table, network
fetches (modelled as a total function of the URL; a run whose fetch fails
exits and is outside the claims considered here), the uuid-derived
`unique_string` value, and the effect of `exec`-ing a `PREAMBLE` script on
the parameter set (arbitrary Python, modelled as an opaque
transformation). -/
structure Env where
  fs : List (LC × LC)
  constants : ParamSet
  fetch : LC → LC
  uniqueString : LC
  preambleExec : LC → ParamSet → ParamSet

/-- An environment with nothing in it. -/
def emptyEnv : Env :=
  { fs := [], constants := [], fetch := fun _ => [], uniqueString := [],
    preambleExec := fun _ k => k }

/-- Filesystem lookup in the include directory. -/
def fsLookup (env : Env) (file : LC) : Option LC :=
  (env.fs.find? (fun e => e.1 == file)).map (·.2)

/-- The file-loading part of `include_file` (everything before the
`process` branch): try `file`, then `file + ".html"`
(`FileNotFoundError` carries the last name tried), and apply
`strip_comments` to the contents. -/
def includeRaw (env : Env) (file : LC) : Except Err LC :=
  match fsLookup env file with
  | some h => .ok (strip_comments h)
  | none =>
    match fsLookup env (file ++ chars (".html")) with
    | some h => .ok (strip_comments h)
    | none => .error (.fileNotFound (file ++ chars (".html")))

/-- `process_preamble(html, kwargs)`: if a `PREAMBLE \s* {{` block is found,
execute its contents (the opaque `env.preambleExec`) against the parameter
set, delete every occurrence of the block, and strip; the `ValueError` of a
failed search (or an unterminated block) is caught and leaves everything
unchanged. -/
def processPreamble (env : Env) (html : LC) (kwargs : ParamSet) : LC × ParamSet :=
  match read_identifier_block (chars ("PREAMBLE")) html with
  | .error _ => (html, kwargs)
  | .ok block =>
    (pyStrip (replaceAll block [] html), env.preambleExec (block_contents block) kwargs)

/-- `is_url(poss)`. -/
def is_url (p : LC) : Bool :=
  isPrefixL (chars ("http://")) p || isPrefixL (chars ("https://")) p

/-- `filename_from_url(url)`: last nonempty `/`-separated segment; exits
when all segments are empty. -/
def filename_from_url (url : LC) : Except Err LC :=
  match (splitOnChar '/' url).reverse.find? (fun p => !p.isEmpty) with
  | some p => .ok p
  | none => .error (.systemExit (chars ("Couldn't determine filename for ") ++ url))

/-- `html_file_substitution`'s candidate loop: first candidate whose file
loads (a `FileNotFoundError` — or directory error, not modelled in the flat
filesystem — moves on to the next candidate). -/
def firstCandidate (env : Env) : List LC → Option LC
  | [] => none
  | c :: rest =>
    match includeRaw env c with
    | .ok h => some h
    | .error _ => firstCandidate env rest

mutual

/-- `process_html(html)`: repeatedly find the leftmost
`SUBSTITUTION_REGEX` match, resolve it, and splice the result in with
`html.replace(m.group(0), repl)` — note: `str.replace` with no count
replaces every occurrence of the matched text — then rescan from the top.
Fuel models the unbounded `while` loop (self-referential includes really do
recurse forever). -/
def processHtml (env : Env) : Nat → LC → Option (Except Err LC)
  | 0, _ => none
  | fuel + 1, html =>
    match findSubstMatch html with
    | none => some (.ok html)
    | some (p, alt, len) =>
      match substRepl env fuel alt with
      | none => none
      | some (.error e) => some (.error e)
      | some (.ok repl) =>
        processHtml env fuel (replaceAll ((html.drop p).take len) repl html)

/-- The dispatch on the populated capture groups in the loop body of
`process_html` (each match populates exactly one alternative's groups, so
the if-chain is the same as this case split). -/
def substRepl (env : Env) : Nat → SubstAlt → Option (Except Err LC)
  | 0, _ => none
  | fuel + 1, alt =>
    match alt with
    | .kwargFile f args => kwargFileSubstitution env fuel f args
    | .htmlFile tag args => htmlFileSubstitution env fuel tag args
    | .funcCall f a => functionSubstitution env fuel f a
    | .bareFile f => includeFile env fuel f true
    | .rawText r => some (.ok r)

/-- `include_file(file, process)`. -/
def includeFile (env : Env) : Nat → LC → Bool → Option (Except Err LC)
  | 0, _, _ => none
  | fuel + 1, file, process =>
    match includeRaw env file with
    | .error e => some (.error e)
    | .ok h => if process then processHtml env fuel h else some (.ok h)

/-- `kwarg_file_subsitution(file, args)` (spelling as in the source):
load the file unprocessed, then run `kwarg_substitution`. -/
def kwargFileSubstitution (env : Env) : Nat → LC → LC → Option (Except Err LC)
  | 0, _, _ => none
  | fuel + 1, file, args =>
    match includeRaw env file with
    | .error e => some (.error e)
    | .ok h => kwargSubstitution env fuel h args

/-- `kwarg_substitution(html, args)`: build the parameter set from the
argument text, run `process_kwarg_html`; a `ValueError` or `KeyError`
escaping it is caught and turned into
`print("[ERROR] Substitution failed ..."); exit(os.EX_DATAERR)` (the
printed reason is abbreviated here to the exception payload). -/
def kwargSubstitution (env : Env) : Nat → LC → LC → Option (Except Err LC)
  | 0, _, _ => none
  | fuel + 1, html, args =>
    let kwargs := parseKwargs args
    match processKwargHtml env fuel html kwargs with
    | some (.error (.valueError m)) =>
      some (.error (.systemExit (chars ("[ERROR] Substitution failed. Reason: ") ++ m)))
    | some (.error (.keyError k)) =>
      some (.error (.systemExit (chars ("[ERROR] Substitution failed. Reason: ") ++ k)))
    | r => r

/-- `process_kwarg_html(html, kwargs)`: preamble, conditionals, then the
`KWARG_REGEX` placeholder loop — `re.finditer` iterates over the document
as it was at loop entry, while each step replaces every occurrence of the
matched placeholder text by `kwargs.get(key, "")` — and finally
`process_html`. -/
def processKwargHtml (env : Env) : Nat → LC → ParamSet → Option (Except Err LC)
  | 0, _, _ => none
  | fuel + 1, html, kwargs =>
    let pr := processPreamble env html kwargs
    match process_ifdefs pr.1 pr.2 with
    | none => none
    | some (.error e) => some (.error e)
    | some (.ok h2) =>
      let h3 := (kwargPlaceholders h2).foldl
        (fun acc m => replaceAll m.1 ((dictGet pr.2 m.2).getD []) acc) h2
      processHtml env fuel h3

/-- `html_file_substitution(tag, args)`: try the three tag-derived
candidate files in order; the first that loads is fed to
`kwarg_substitution`, and if none loads the run exits with the
missing-include message. -/
def htmlFileSubstitution (env : Env) : Nat → LC → LC → Option (Except Err LC)
  | 0, _, _ => none
  | fuel + 1, tag, args =>
    match firstCandidate env (tagCandidates tag) with
    | some h => kwargSubstitution env fuel h args
    | none =>
      some (.error (.systemExit (chars ("Missing include file for tag: ") ++ tag)))

/-- `function_substitution(func, arg)`: split the argument on commas
(dropping empty pieces before stripping), dispatch on the fixed registry
`[bootstrap_icon, stylesheet, javascript, constant, unique_string]`; a
wrong argument count is an uncaught `TypeError`.  The registry `KeyError`
for an unknown name falls back to `kwarg_file_subsitution`, and only a
`SystemExit` from that fallback is converted to the
"Missing function" exit — a `FileNotFoundError` propagates unhandled. -/
def functionSubstitution (env : Env) : Nat → LC → LC → Option (Except Err LC)
  | 0, _, _ => none
  | fuel + 1, func, arg =>
    let args := ((splitOnChar ',' arg).filter (fun s => !s.isEmpty)).map pyStrip
    if func == chars ("bootstrap_icon") then
      match args with
      | [n] =>
        some (.ok (env.fetch
          (chars ("https://icons.getbootstrap.com/assets/icons/") ++ n ++ chars (".svg"))))
      | _ => some (.error (.typeError (chars ("bootstrap_icon"))))
    else if func == chars ("stylesheet") then
      match args with
      | [r] => stylesheetF env fuel r
      | _ => some (.error (.typeError (chars ("stylesheet"))))
    else if func == chars ("javascript") then
      match args with
      | [r] => javascriptF env fuel r
      | _ => some (.error (.typeError (chars ("javascript"))))
    else if func == chars ("constant") then
      match args with
      | [n] => (constantCall env.constants fuel [] n).map (fun r => r.1)
      | _ => some (.error (.typeError (chars ("constant"))))
    else if func == chars ("unique_string") then
      match args with
      | [] => some (.ok env.uniqueString)
      | _ => some (.error (.typeError (chars ("unique_string"))))
    else
      match kwargFileSubstitution env fuel func arg with
      | some (.error (.systemExit _)) =>
        some (.error (.systemExit
          (chars ("Missing function: ") ++ func ++ chars (". Aborting."))))
      | r => r

/-- `stylesheet(resource)`: a URL is rehosted (the returned markup only
uses the derived filename), a local resource is inlined through
`load_resource`, i.e. a processed include. -/
def stylesheetF (env : Env) : Nat → LC → Option (Except Err LC)
  | 0, _ => none
  | fuel + 1, resource =>
    if is_url resource then
      match filename_from_url resource with
      | .error e => some (.error e)
      | .ok fn =>
        some (.ok (chars ("<link rel=\"stylesheet\" href=\"/") ++ fn ++ chars ("\">")))
    else
      match includeFile env fuel resource true with
      | some (.ok h) => some (.ok (chars ("<style>") ++ h ++ chars ("</style>")))
      | r => r

/-- `javascript(resource)`: as `stylesheet`, with script markup. -/
def javascriptF (env : Env) : Nat → LC → Option (Except Err LC)
  | 0, _ => none
  | fuel + 1, resource =>
    if is_url resource then
      match filename_from_url resource with
      | .error e => some (.error e)
      | .ok fn =>
        some (.ok (chars ("<script src=\"/") ++ fn ++ chars ("\"></script>")))
    else
      match includeFile env fuel resource true with
      | some (.ok h) => some (.ok (chars ("<script>") ++ h ++ chars ("</script>")))
      | r => r

end

example :
    kwargSubstitution emptyEnv 5
      (chars ("IFNDEF(VAR) \x7b\x7b Hello World \x7d\x7d ELSE \x7b\x7b \x7b\x7b VAR \x7d\x7d \x7d\x7d"))
      [] = some (.ok (chars ("Hello World"))) := by
  decide

example :
    processKwargHtml emptyEnv 5
      (chars ("IFNDEF(VAR) \x7b\x7b Hello World \x7d\x7d ELSE \x7b\x7b \x7b\x7b VAR \x7d\x7d \x7d\x7d"))
      [(chars ("VAR"), chars ("Goodbye World"))] = some (.ok (chars ("Goodbye World"))) := by
  decide

/-! ## Claim theorems -/

/-- C2: on `"{{ a {{ b }} c }}"` with start offset 0, `read_block` returns
the whole span (including the inner brace pair), and `block_contents` of
that span is `" a {{ b }} c "`. -/
theorem C2_read_block_nesting :
    read_block 0 (chars ("\x7b\x7b a \x7b\x7b b \x7d\x7d c \x7d\x7d")) =
      .ok (chars ("\x7b\x7b a \x7b\x7b b \x7d\x7d c \x7d\x7d")) ∧
    block_contents (chars ("\x7b\x7b a \x7b\x7b b \x7d\x7d c \x7d\x7d")) =
      chars (" a \x7b\x7b b \x7d\x7d c ") := by
  decide

/-- If the `read_block` scan stops with nonzero depth, it consumed the
whole remaining text (the loop only stops early when the depth is back to
zero after the block started). -/
theorem readBlockLoop_consumed_all (l : LC) :
    ∀ st n, (readBlockLoop l st n).2 ≠ 0 → (readBlockLoop l st n).1 = l.length := by
  induction l with
  | nil => intro st n _; rfl
  | cons c rest ih =>
    intro st n h
    unfold readBlockLoop at h ⊢
    by_cases hc : (n != 0 || !st) = true
    · simp only [hc, if_true] at h ⊢
      simp only [List.length_cons]
      have := ih _ _ h
      omega
    · simp only [hc] at h ⊢
      simp only [Bool.or_eq_true, bne_iff_ne, ne_eq, Bool.not_eq_true', not_or,
        Decidable.not_not] at hc
      exact absurd hc.1 h

/-- C8: `read_block` fails (with the unterminated-block `ValueError`) if
and only if its scan reaches the end of the text with nonzero brace depth;
on such inputs it returns the error rather than a span. -/
theorem C8_read_block_error_iff_unterminated (start : Nat) (html : LC) :
    read_block start html = .error (.valueError (chars ("Unterminated block."))) ↔
      ((readBlockLoop (html.drop start) false 0).2 ≠ 0 ∧
        (readBlockLoop (html.drop start) false 0).1 = (html.drop start).length) := by
  simp only [read_block]
  constructor
  · intro h
    by_cases hz : (readBlockLoop (html.drop start) false 0).2 ≠ 0
    · exact ⟨hz, readBlockLoop_consumed_all _ _ _ hz⟩
    · rw [if_neg hz] at h
      cases h
  · intro ⟨hz, _⟩
    rw [if_pos hz]

/-- C10: `constant`'s memoization.  With an empty parsed table the call
diverges for every name (every fuel bound is exhausted); with a nonempty
table the first call (empty memo) performs exactly one file read and leaves
the memo equal to the table, and any call that starts with a nonempty memo
performs zero file reads. -/
theorem C10_constant_memoization (table : ParamSet) (name : LC) :
    (table = [] → ∀ fuel, constantCall [] fuel [] name = none) ∧
    (table ≠ [] →
      (∀ fuel, ∃ res, constantCall table (fuel + 2) [] name = some (res, table, 1)) ∧
      (∀ memo, memo ≠ [] → ∀ fuel name₂,
        ∃ res, constantCall table (fuel + 1) memo name₂ = some (res, memo, 0))) := by
  refine ⟨?_, fun htab => ⟨?_, ?_⟩⟩
  · rintro rfl fuel
    induction fuel generalizing name with
    | zero => rfl
    | succ fuel ih =>
      unfold constantCall
      simp only [List.isEmpty_nil, Bool.not_true, Bool.false_eq_true, if_false,
        List.nil_append, List.append_nil, ih]
  · intro fuel
    unfold constantCall
    simp only [List.isEmpty_nil, Bool.not_true, List.nil_append, Bool.false_eq_true,
      if_false]
    unfold constantCall
    have : table.isEmpty = false := by
      cases table with
      | nil => exact absurd rfl htab
      | cons a l => rfl
    simp only [this, Bool.not_false, if_true]
    cases hd : dictGet table (pyStrip (pyStrip name)) with
    | none => exact ⟨_, rfl⟩
    | some v => exact ⟨_, rfl⟩
  · intro memo hm fuel name₂
    unfold constantCall
    have : memo.isEmpty = false := by
      cases memo with
      | nil => exact absurd rfl hm
      | cons a l => rfl
    simp only [this, Bool.not_false, if_true]
    cases hd : dictGet memo (pyStrip name₂) with
    | none => exact ⟨_, rfl⟩
    | some v => exact ⟨_, rfl⟩

/-- Witness for C10 at a concrete table and name. -/
theorem C10_constant_memoization_witness :
    ((([] : ParamSet) = [] → ∀ fuel, constantCall [] fuel [] (chars ("K")) = none)) ∧
    (∃ res, constantCall [(chars ("K"), chars ("1"))] 2 [] (chars ("K")) =
      some (res, [(chars ("K"), chars ("1"))], 1)) ∧
    (∃ res, constantCall [(chars ("K"), chars ("1"))] 1 [(chars ("K"), chars ("1"))] (chars ("K")) =
      some (res, [(chars ("K"), chars ("1"))], 0)) := by
  refine ⟨(C10_constant_memoization [] (chars ("K"))).1, ?_, ?_⟩
  · exact ((C10_constant_memoization [(chars ("K"), chars ("1"))] (chars ("K"))).2
      (by decide)).1 0
  · exact ((C10_constant_memoization [(chars ("K"), chars ("1"))] (chars ("K"))).2
      (by decide)).2 [(chars ("K"), chars ("1"))] (by decide) 0 (chars ("K"))

/-- C7 (code evaluated at the failing input): for the unknown function name
`mystery` with an empty include tree, `function_substitution` attempts the
include fallback and the missing file surfaces as an (uncaught)
`FileNotFoundError`, not as the "Missing function" exit; with the fallback
include present, the call degrades into the parameterized include as the
claim's first half says. -/
theorem C7_unknown_function_fallback :
    functionSubstitution emptyEnv 3 (chars ("mystery")) [] =
      some (.error (.fileNotFound (chars ("mystery.html")))) ∧
    functionSubstitution emptyEnv 3 (chars ("mystery")) [] ≠
      some (.error (.systemExit (chars ("Missing function: mystery. Aborting.")))) ∧
    functionSubstitution
        { emptyEnv with fs := [(chars ("mystery"), chars ("content"))] } 9
        (chars ("mystery")) [] =
      some (.ok (chars ("content"))) := by
  refine ⟨by decide, by decide, by decide⟩

theorem isPrefixL_length_le : ∀ {p s : LC}, isPrefixL p s = true → p.length ≤ s.length := by
  intro p
  induction p with
  | nil => intro s _; simp
  | cons a as ih =>
    intro s h
    cases s with
    | nil => simp [isPrefixL] at h
    | cons b bs =>
      simp only [isPrefixL, Bool.and_eq_true] at h
      simpa using ih h.2

theorem isPrefixL_refl (l : LC) : isPrefixL l l = true := by
  induction l with
  | nil => rfl
  | cons a as ih => simp [isPrefixL, ih]

theorem isPrefixL_take (l : LC) (n : Nat) : isPrefixL (l.take n) l = true := by
  induction l generalizing n with
  | nil => cases n <;> rfl
  | cons a as ih =>
    cases n with
    | zero => rfl
    | succ n => simp [isPrefixL, ih]

theorem containsL_of_isPrefixL {p s : LC} (h : isPrefixL p s = true) :
    containsL p s = true := by
  cases s with
  | nil => simpa [containsL] using h
  | cons c rest => simp [containsL, h]

theorem containsL_drop {p l : LC} {n : Nat} (h : containsL p (l.drop n) = true) :
    containsL p l = true := by
  induction l generalizing n with
  | nil => simpa using h
  | cons c rest ih =>
    cases n with
    | zero => simpa using h
    | succ n =>
      simp only [List.drop_succ_cons] at h
      have := ih h
      simp [containsL, this]

theorem replace1_length (repl : LC) {pat : LC} (hne : pat ≠ []) :
    ∀ {s : LC}, containsL pat s = true →
      (replace1 pat repl s).length + pat.length = s.length + repl.length := by
  intro s
  induction s with
  | nil =>
    intro h
    cases pat with
    | nil => exact absurd rfl hne
    | cons a as => simp [containsL, isPrefixL] at h
  | cons c rest ih =>
    intro h
    simp only [replace1]
    by_cases hp : isPrefixL pat (c :: rest) = true
    · rw [if_pos hp]
      have hle := isPrefixL_length_le hp
      simp only [List.length_append, List.length_drop, List.length_cons] at *
      omega
    · rw [if_neg hp]
      simp only [containsL, Bool.or_eq_true] at h
      rcases h with h | h
      · exact absurd h hp
      · have := ih h
        simp only [List.length_cons]
        omega

theorem replace1_eq_self (l r : LC) (h : l ≠ []) : replace1 l r l = r := by
  cases l with
  | nil => exact absurd rfl h
  | cons c rest =>
    simp [replace1, isPrefixL_refl]

theorem take_length_take (l : LC) (n : Nat) : l.take (l.take n).length = l.take n := by
  induction l generalizing n with
  | nil => simp
  | cons a as ih =>
    cases n with
    | zero => simp
    | succ n => simp [ih]

theorem pyStrip_length_le (l : LC) : (pyStrip l).length ≤ l.length := by
  have h1 : ∀ (m : LC), (m.dropWhile isSpacePy).length ≤ m.length := by
    intro m
    induction m with
    | nil => simp
    | cons a as ih =>
      by_cases h : isSpacePy a = true
      · simp only [List.dropWhile_cons_of_pos h, List.length_cons]
        omega
      · simp [List.dropWhile_cons_of_neg h]
  calc (pyStrip l).length
      = ((l.dropWhile isSpacePy).reverse.dropWhile isSpacePy).length := by
        simp [pyStrip]
    _ ≤ (l.dropWhile isSpacePy).reverse.length := h1 _
    _ ≤ l.length := by
        simpa using h1 l

/-! ### Termination of the conditional resolver (C9) -/

theorem findOpenSplit_length :
    ∀ {b r : LC}, findOpenSplit b = some r → r.length + 2 ≤ b.length := by
  intro b
  induction b with
  | nil => intro r h; simp [findOpenSplit] at h
  | cons c rest ih =>
    intro r h
    cases rest with
    | nil => simp [findOpenSplit] at h
    | cons d rest2 =>
      simp only [findOpenSplit] at h
      by_cases hcd : (c == '\x7b' && d == '\x7b') = true
      · rw [if_pos hcd] at h
        injection h with h
        subst h
        simp only [List.length_cons]
        omega
      · rw [if_neg hcd] at h
        have := ih h
        simp only [List.length_cons] at *
        omega

theorem block_contents_length_lt {b : LC} (hne : b ≠ []) :
    (block_contents b).length < b.length := by
  have hb : 1 ≤ b.length := by
    cases b with
    | nil => exact absurd rfl hne
    | cons c r => simp
  simp only [block_contents]
  cases hf : findOpenSplit b with
  | none =>
    simp only [Option.getD_none, List.length_take]
    omega
  | some r =>
    have := findOpenSplit_length hf
    simp only [Option.getD_some, List.length_take]
    omega

theorem pyStrip_block_contents_lt {b : LC} (hne : b ≠ []) :
    (pyStrip (block_contents b)).length < b.length :=
  lt_of_le_of_lt (pyStrip_length_le _) (block_contents_length_lt hne)

theorem matchIfdefAt_ne_nil {we : Bool} {s : LC} {r : CondKind × LC}
    (h : matchIfdefAt we s = some r) : s ≠ [] := by
  intro hs
  subst hs
  simp [matchIfdefAt, matchCondAt] at h

theorem findIfdefMatch_spec {we : Bool} :
    ∀ {html : LC} {p : Nat} {cond : CondKind} {arg : LC},
      findIfdefMatch we html = some (p, cond, arg) →
        matchIfdefAt we (html.drop p) = some (cond, arg) := by
  intro html
  induction html with
  | nil => intro p cond arg h; simp [findIfdefMatch] at h
  | cons c rest ih =>
    intro p cond arg h
    simp only [findIfdefMatch] at h
    cases hm : matchIfdefAt we (c :: rest) with
    | some r =>
      rw [hm] at h
      cases h
      simpa using hm
    | none =>
      rw [hm] at h
      cases hr : findIfdefMatch we rest with
      | none => rw [hr] at h; cases h
      | some r =>
        rw [hr] at h
        cases h
        simpa using ih hr

theorem read_block_ok_shape {start : Nat} {html b : LC}
    (h : read_block start html = .ok b) :
    b = (html.drop start).take (readBlockLoop (html.drop start) false 0).1 := by
  simp only [read_block] at h
  by_cases hz : (readBlockLoop (html.drop start) false 0).2 ≠ 0
  · rw [if_pos hz] at h; cases h
  · rw [if_neg hz] at h
    injection h with h
    exact h.symm

theorem readBlockLoop_pos (c : Char) (rest : LC) :
    1 ≤ (readBlockLoop (c :: rest) false 0).1 := by
  simp only [readBlockLoop]
  norm_num

theorem read_block_ok_ne_nil {start : Nat} {html b : LC}
    (hn : html.drop start ≠ []) (h : read_block start html = .ok b) : b ≠ [] := by
  have hb := read_block_ok_shape h
  cases hd : html.drop start with
  | nil => exact absurd hd hn
  | cons c rest =>
    rw [hd] at hb
    have := readBlockLoop_pos c rest
    intro hbn
    rw [hbn] at hb
    have : ((c :: rest).take (readBlockLoop (c :: rest) false 0).1).length = 0 := by
      rw [← hb]
      rfl
    simp only [List.length_take, List.length_cons] at this
    omega

/-- The full matched region re-read by `read_ifdef_block` is a prefix of
the tail of the document at the match position. -/
theorem read_ifdef_block_prefix {p : Nat} {html ib eb full : LC}
    (h : read_ifdef_block p html = .ok (ib, eb, full)) :
    full = ib ++ eb ∧ isPrefixL full (html.drop p) = true ∧
      read_block p html = .ok ib := by
  simp only [read_ifdef_block] at h
  split at h
  · cases h
  · rename_i ib' h1
    split at h
    · split at h
      · cases h
      · rename_i eb' h2
        injection h with h3
        simp only [Prod.mk.injEq] at h3
        obtain ⟨rfl, rfl, rfl⟩ := h3
        refine ⟨rfl, ?_, h1⟩
        have hib := read_block_ok_shape h1
        have heb := read_block_ok_shape h2
        have hdd : html.drop (p + ib'.length) = (html.drop p).drop ib'.length := by
          rw [List.drop_drop, Nat.add_comm]
        rw [hdd] at heb
        have hibt : (html.drop p).take ib'.length = ib' := by
          rw [hib, take_length_take]
        have hfull : ib' ++ eb' =
            (html.drop p).take
              (ib'.length + (readBlockLoop ((html.drop p).drop ib'.length) false 0).1) := by
          rw [List.take_add, hibt, ← heb]
        rw [hfull]
        exact isPrefixL_take _ _
    · injection h with h3
      simp only [Prod.mk.injEq] at h3
      obtain ⟨rfl, rfl, rfl⟩ := h3
      refine ⟨rfl, ?_, h1⟩
      have hib := read_block_ok_shape h1
      simp only [List.append_nil]
      rw [hib]
      exact isPrefixL_take _ _

/-- One successful iteration of `_process_ifdefs` strictly shrinks the
document: the replacement is the trimmed contents of one of the blocks of
the matched region, hence strictly shorter than the region itself. -/
theorem ifdef_step_decreases (kwargs : ParamSet) {we : Bool} {html : LC}
    {p : Nat} {cond : CondKind} {arg ib eb full : LC}
    (hf : findIfdefMatch we html = some (p, cond, arg))
    (hr : read_ifdef_block p html = .ok (ib, eb, full)) :
    (replace1 full (ifdefRepl kwargs cond arg ib eb) html).length < html.length := by
  obtain ⟨hfull, hpre, hrb⟩ := read_ifdef_block_prefix hr
  have hdrop : html.drop p ≠ [] := by
    have := matchIfdefAt_ne_nil (findIfdefMatch_spec hf)
    exact this
  have hib : ib ≠ [] := read_block_ok_ne_nil hdrop hrb
  have hfullne : full ≠ [] := by
    rw [hfull]
    intro h
    exact hib (List.append_eq_nil.mp h).1
  have hibfull : ib.length ≤ full.length := by
    rw [hfull]; simp
  have hebfull : eb.length ≤ full.length := by
    rw [hfull]; simp
  have hiblen : 1 ≤ ib.length := by
    cases ib with
    | nil => exact absurd rfl hib
    | cons c r => simp
  have hrepl : (ifdefRepl kwargs cond arg ib eb).length < full.length := by
    simp only [ifdefRepl]
    split
    · exact lt_of_lt_of_le (pyStrip_block_contents_lt hib) hibfull
    · by_cases heb : eb = []
      · subst heb
        simp only [block_contents, findOpenSplit, Option.getD_none, List.length_nil,
          List.take_nil]
        have : (pyStrip ([] : LC)).length ≤ 0 := by
          simpa using pyStrip_length_le ([] : LC)
        rw [hfull]
        simp only [List.append_nil]
        omega
      · exact lt_of_lt_of_le (pyStrip_block_contents_lt heb) hebfull
  have hcont : containsL full html = true :=
    containsL_drop (containsL_of_isPrefixL hpre)
  have := replace1_length (ifdefRepl kwargs cond arg ib eb) hfullne hcont
  omega

theorem ifdefLoop_succ_none {we : Bool} {kw : ParamSet} {fuel : Nat} {html : LC}
    (hm : findIfdefMatch we html = none) :
    ifdefLoop we kw (fuel + 1) html = some (.ok html) := by
  simp only [ifdefLoop, hm]

theorem ifdefLoop_succ_err {we : Bool} {kw : ParamSet} {fuel : Nat} {html : LC}
    {p : Nat} {cond : CondKind} {arg : LC} {e : Err}
    (hm : findIfdefMatch we html = some (p, cond, arg))
    (hr : read_ifdef_block p html = .error e) :
    ifdefLoop we kw (fuel + 1) html = some (.error e) := by
  simp only [ifdefLoop, hm, hr]

theorem ifdefLoop_succ_step {we : Bool} {kw : ParamSet} {fuel : Nat} {html : LC}
    {p : Nat} {cond : CondKind} {arg ib eb full : LC}
    (hm : findIfdefMatch we html = some (p, cond, arg))
    (hr : read_ifdef_block p html = .ok (ib, eb, full)) :
    ifdefLoop we kw (fuel + 1) html =
      ifdefLoop we kw fuel (replace1 full (ifdefRepl kw cond arg ib eb) html) := by
  simp only [ifdefLoop, hm, hr]

theorem ifdefLoop_mono {we : Bool} {kw : ParamSet} :
    ∀ {f : Nat} (f' : Nat) {html : LC} {r}, f ≤ f' →
      ifdefLoop we kw f html = some r → ifdefLoop we kw f' html = some r := by
  intro f
  induction f with
  | zero => intro f' html r _ h; cases h
  | succ f ih =>
    intro f' html r hle h
    cases f' with
    | zero => omega
    | succ f' =>
      cases hm : findIfdefMatch we html with
      | none =>
        rw [ifdefLoop_succ_none hm] at h ⊢
        exact h
      | some m =>
        obtain ⟨p, cond, arg⟩ := m
        cases hr : read_ifdef_block p html with
        | error e =>
          rw [ifdefLoop_succ_err hm hr] at h ⊢
          exact h
        | ok blocks =>
          obtain ⟨ib, eb, full⟩ := blocks
          rw [ifdefLoop_succ_step hm hr] at h ⊢
          exact ih f' (by omega) h

theorem ifdefLoop_terminates (we : Bool) (kw : ParamSet) :
    ∀ (n : Nat) (html : LC), html.length ≤ n →
      (ifdefLoop we kw (html.length + 1) html).isSome = true := by
  intro n
  induction n with
  | zero =>
    intro html hlen
    have : html = [] := by
      cases html with
      | nil => rfl
      | cons c r => simp at hlen
    subst this
    rfl
  | succ n ih =>
    intro html hlen
    cases hm : findIfdefMatch we html with
    | none => rw [ifdefLoop_succ_none hm]; rfl
    | some m =>
      obtain ⟨p, cond, arg⟩ := m
      cases hr : read_ifdef_block p html with
      | error e => rw [ifdefLoop_succ_err hm hr]; rfl
      | ok blocks =>
        obtain ⟨ib, eb, full⟩ := blocks
        rw [ifdefLoop_succ_step hm hr]
        have hdec := ifdef_step_decreases kw hm hr
        set html' := replace1 full (ifdefRepl kw cond arg ib eb) html with hh
        have h1 : html'.length ≤ n := by omega
        have h2 := ih html' h1
        cases hs : ifdefLoop we kw (html'.length + 1) html' with
        | none => rw [hs] at h2; cases h2
        | some r =>
          have h3 := ifdefLoop_mono html.length (by omega) hs
          rw [h3]
          rfl

/-- C9: each iteration of the `_process_ifdefs` loop replaces the matched
region (IFDEF block plus any ELSE block) with the trimmed contents of one
of its blocks, strictly shrinking the document, so the loop terminates:
fuel `length + 1` is never exhausted for either pass, and `process_ifdefs`
yields a result on every document and parameter set. -/
theorem C9_process_ifdefs_terminates (we : Bool) (kwargs : ParamSet) (html : LC) :
    (∀ p cond arg ib eb full,
      findIfdefMatch we html = some (p, cond, arg) →
      read_ifdef_block p html = .ok (ib, eb, full) →
      (replace1 full (ifdefRepl kwargs cond arg ib eb) html).length < html.length) ∧
    (ifdefLoop we kwargs (html.length + 1) html).isSome = true ∧
    (process_ifdefs html kwargs).isSome = true := by
  refine ⟨fun p cond arg ib eb full hf hr => ifdef_step_decreases kwargs hf hr,
    ifdefLoop_terminates we kwargs html.length html (le_refl _), ?_⟩
  simp only [process_ifdefs]
  have h1 := ifdefLoop_terminates true kwargs html.length html (le_refl _)
  cases hs : ifdefLoop true kwargs (html.length + 1) html with
  | none => rw [hs] at h1; cases h1
  | some r =>
    cases r with
    | error e => rfl
    | ok h1' =>
      have h2 := ifdefLoop_terminates false kwargs h1'.length h1' (le_refl _)
      cases hs2 : ifdefLoop false kwargs (h1'.length + 1) h1' with
      | none => rw [hs2] at h2; cases h2
      | some r2 =>
        show (ifdefLoop false kwargs (h1'.length + 1) h1').isSome = true
        rw [hs2]
        rfl

/-- Witness for C9: the shrinking step and the fuel bound at the concrete
document `IFDEF(A) {{x}}` (with `IFDEF_REGEX`, i.e. the second pass) and an
empty parameter set. -/
theorem C9_process_ifdefs_terminates_witness :
    (replace1 (chars ("IFDEF(A) \x7b\x7bx\x7d\x7d"))
        (ifdefRepl [] CondKind.cifdef (chars ("A")) (chars ("IFDEF(A) \x7b\x7bx\x7d\x7d")) [])
        (chars ("IFDEF(A) \x7b\x7bx\x7d\x7d"))).length <
      (chars ("IFDEF(A) \x7b\x7bx\x7d\x7d")).length ∧
    (process_ifdefs (chars ("IFDEF(A) \x7b\x7bx\x7d\x7d")) []).isSome = true := by
  refine ⟨(C9_process_ifdefs_terminates false [] (chars ("IFDEF(A) \x7b\x7bx\x7d\x7d"))).1
      0 CondKind.cifdef (chars ("A")) (chars ("IFDEF(A) \x7b\x7bx\x7d\x7d")) []
      (chars ("IFDEF(A) \x7b\x7bx\x7d\x7d")) (by decide) (by decide),
    (C9_process_ifdefs_terminates false [] (chars ("IFDEF(A) \x7b\x7bx\x7d\x7d"))).2.2⟩

/-! ### C1: resolution of well-formed conditional forms -/

/-- The literal text `IFDEF(` / `IFNDEF(` of a conditional form. -/
def condLit : CondKind → LC
  | .cifdef => chars ("IFDEF(")
  | .cifndef => chars ("IFNDEF(")

/-- A well-formed `COND(NAME) {{A}} ELSE {{B}}` document. -/
def ifdefElseDoc (cond : CondKind) (name A B : LC) : LC :=
  condLit cond ++ name ++ chars (") \x7b\x7b") ++ A ++
    chars ("\x7d\x7d ELSE \x7b\x7b") ++ B ++ chars ("\x7d\x7d")

/-- A well-formed bare `COND(NAME) {{A}}` document (no `ELSE`). -/
def ifdefBareDoc (cond : CondKind) (name A : LC) : LC :=
  condLit cond ++ name ++ chars (") \x7b\x7b") ++ A ++ chars ("\x7d\x7d")

theorem condArg_raw {c : Char} (h : isCondArgChar c = true) : isRawChar c = true := by
  simp only [isCondArgChar, Bool.or_eq_true, Bool.and_eq_true] at h
  simp only [isRawChar, Bool.and_eq_true, bne_iff_ne, ne_eq]
  rcases h with ⟨h1, h2⟩ | h3
  · rw [decide_eq_true_eq] at h1 h2
    constructor <;> intro hc <;> subst hc <;> revert h1 h2 <;> decide
  · have : c = '_' := beq_iff_eq.mp h3
    subst this
    exact ⟨by decide, by decide⟩

theorem raw_not_open {c : Char} (h : isRawChar c = true) : (c == '\x7b') = false := by
  simp only [isRawChar, Bool.and_eq_true, bne_iff_ne, ne_eq] at h
  simpa using h.1

theorem raw_not_close {c : Char} (h : isRawChar c = true) : (c == '\x7d') = false := by
  simp only [isRawChar, Bool.and_eq_true, bne_iff_ne, ne_eq] at h
  simpa using h.2

theorem readBlockLoop_skip (bs : LC) (hbs : ∀ c ∈ bs, isRawChar c = true) :
    ∀ (l : LC) (st : Bool) (n : Int), (n != 0 || !st) = true → (st || (n == 2)) = st →
      readBlockLoop (bs ++ l) st n =
        ((readBlockLoop l st n).1 + bs.length, (readBlockLoop l st n).2) := by
  induction bs with
  | nil => intro l st n _ _; simp
  | cons c bs' ih =>
    intro l st n hc hinv
    have hcr : isRawChar c = true := hbs c (List.mem_cons_self c bs')
    simp only [List.cons_append, readBlockLoop, if_pos hc, raw_not_open hcr,
      raw_not_close hcr, Bool.false_eq_true, if_false, hinv, List.append_eq]
    rw [ih (fun d hd => hbs d (List.mem_cons_of_mem c hd)) l st n hc hinv]
    simp only [List.length_cons, Prod.mk.injEq]
    exact ⟨by omega, by trivial⟩

theorem rbl_open1 (l : LC) : readBlockLoop ('\x7b' :: l) false 0 =
    ((readBlockLoop l false 1).1 + 1, (readBlockLoop l false 1).2) := rfl

theorem rbl_open2 (l : LC) : readBlockLoop ('\x7b' :: l) false 1 =
    ((readBlockLoop l true 2).1 + 1, (readBlockLoop l true 2).2) := rfl

theorem rbl_close1 (l : LC) : readBlockLoop ('\x7d' :: l) true 2 =
    ((readBlockLoop l true 1).1 + 1, (readBlockLoop l true 1).2) := rfl

theorem rbl_close2 (l : LC) : readBlockLoop ('\x7d' :: l) true 1 =
    ((readBlockLoop l true 0).1 + 1, (readBlockLoop l true 0).2) := rfl

theorem rbl_done (l : LC) : readBlockLoop l true 0 = (0, 0) := by
  cases l <;> rfl

/-- `readBlockLoop` on a decomposed block `pre {{ mid }} tail` with
brace-free `pre` and `mid`: it consumes exactly the block and ends at
depth 0. -/
theorem readBlockLoop_block (pre mid tail : LC)
    (hpre : ∀ c ∈ pre, isRawChar c = true) (hmid : ∀ c ∈ mid, isRawChar c = true) :
    readBlockLoop (pre ++ '\x7b' :: '\x7b' :: (mid ++ '\x7d' :: '\x7d' :: tail)) false 0 =
      (pre.length + (mid.length + 4), 0) := by
  rw [readBlockLoop_skip pre hpre _ false 0 (by decide) (by decide), rbl_open1, rbl_open2,
    readBlockLoop_skip mid hmid _ true 2 (by decide) (by decide), rbl_close1, rbl_close2,
    rbl_done]
  simp only [Prod.mk.injEq]
  exact ⟨by omega, by trivial⟩

theorem read_block_shift (s : Nat) (html : LC) :
    read_block s html = read_block 0 (html.drop s) := rfl

theorem count_drop_le (a : Char) (n : Nat) (l : LC) :
    (l.drop n).count a ≤ l.count a :=
  (List.drop_sublist n l).count_le a

theorem count_dropWhile_le (a : Char) (p : Char → Bool) (l : LC) :
    (l.dropWhile p).count a ≤ l.count a :=
  (List.dropWhile_sublist p).count_le a

theorem count_append_left_le (a : Char) (pre l : LC) :
    l.count a ≤ (pre ++ l).count a := by
  rw [List.count_append]
  omega

theorem count_open2 (x : LC) :
    ('\x7b' :: '\x7b' :: x).count '\x7b' = 2 + x.count '\x7b' := by
  have h1 : ('\x7b' :: '\x7b' :: x) = ['\x7b', '\x7b'] ++ x := rfl
  have h2 : (['\x7b', '\x7b'] : LC).count '\x7b' = 2 := by decide
  rw [h1, List.count_append, h2]

theorem expectChar_eq {c : Char} {l rest : LC} (h : expectChar c l = some rest) :
    l = c :: rest := by
  cases l with
  | nil => cases h
  | cons d r =>
    simp only [expectChar] at h
    by_cases hd : (d == c) = true
    · rw [if_pos hd] at h
      injection h with h
      subst h
      rw [beq_iff_eq.mp hd]
    · rw [if_neg hd] at h
      cases h

theorem matchCondAt_count {s t : LC} {cond : CondKind}
    (h : matchCondAt s = some (cond, t)) :
    t.count '\x7b' ≤ s.count '\x7b' := by
  unfold matchCondAt at h
  split at h
  all_goals
    first
      | (simp only [Option.some.injEq, Prod.mk.injEq] at h
         obtain ⟨rfl, rfl⟩ := h
         first
           | exact count_append_left_le '\x7b' (chars ("IFNDEF")) _
           | exact count_append_left_le '\x7b' (chars ("IFDEF")) _)
      | (cases h)

theorem matchElseTail_count {r : LC} (h : matchElseTail r = true) :
    2 ≤ r.count '\x7b' := by
  unfold matchElseTail at h
  split at h
  · rename_i r2 heq
    split at h
    · rename_i u heq2
      have h0 := count_dropWhile_le '\x7b' isSpacePy r2
      rw [heq2, count_open2] at h0
      have h0' := count_dropWhile_le '\x7b' isSpacePy r
      rw [heq] at h0'
      have h2 : r2.count '\x7b' ≤ ('E' :: 'L' :: 'S' :: 'E' :: r2).count '\x7b' :=
        count_append_left_le '\x7b' (chars ("ELSE")) r2
      omega
    · cases h
  · cases h

theorem lazyCloseThen_count {p : LC → Bool}
    (hp : ∀ r, p r = true → 2 ≤ r.count '\x7b') :
    ∀ {l : LC}, lazyCloseThen p l = true → 2 ≤ l.count '\x7b' := by
  intro l
  induction l with
  | nil => intro h; cases h
  | cons c rest ih =>
    intro h
    cases rest with
    | nil => cases h
    | cons d r =>
      simp only [lazyCloseThen, Bool.or_eq_true, Bool.and_eq_true] at h
      rcases h with ⟨_, hpr⟩ | h2
      · have := hp r hpr
        simp only [List.count_cons]
        omega
      · have := ih h2
        simp only [List.count_cons] at this ⊢
        omega

theorem matchIfdefAt_count {we : Bool} {s : LC} {r : CondKind × LC}
    (h : matchIfdefAt we s = some r) :
    (if we then 4 else 2) ≤ s.count '\x7b' := by
  simp only [matchIfdefAt] at h
  cases hcond : matchCondAt s with
  | none => rw [hcond] at h; cases h
  | some pr =>
    simp only [hcond, Option.some_bind] at h
    obtain ⟨cond, t⟩ := pr
    have hts : t.count '\x7b' ≤ s.count '\x7b' := matchCondAt_count hcond
    cases hu : expectChar '(' t with
    | none => rw [hu] at h; cases h
    | some u =>
      simp only [hu, Option.some_bind] at h
      have hut : u.count '\x7b' ≤ t.count '\x7b' := by
        rw [expectChar_eq hu]
        exact count_append_left_le '\x7b' ['('] u
      by_cases harg : (u.takeWhile isCondArgChar).isEmpty = true
      · rw [if_pos harg] at h; cases h
      · rw [if_neg harg] at h
        cases hv : expectChar ')' (u.drop (u.takeWhile isCondArgChar).length) with
        | none => rw [hv] at h; cases h
        | some v =>
          simp only [hv, Option.some_bind] at h
          have hvu : v.count '\x7b' ≤ u.count '\x7b' := by
            have h0 := count_drop_le '\x7b' (u.takeWhile isCondArgChar).length u
            rw [expectChar_eq hv] at h0
            have h1 : v.count '\x7b' ≤ (')' :: v).count '\x7b' :=
              count_append_left_le '\x7b' [')'] v
            omega
          cases hw : expectChar '\x7b' (v.dropWhile isSpacePy) with
          | none => rw [hw] at h; cases h
          | some w1 =>
            simp only [hw, Option.some_bind] at h
            cases hx : expectChar '\x7b' w1 with
            | none => rw [hx] at h; cases h
            | some x =>
              simp only [hx, Option.some_bind] at h
              have hxv : 2 + x.count '\x7b' ≤ v.count '\x7b' := by
                have h0 := count_dropWhile_le '\x7b' isSpacePy v
                rw [expectChar_eq hw, expectChar_eq hx, count_open2] at h0
                omega
              cases we with
              | false =>
                simp only [Bool.false_eq_true, if_false] at h ⊢
                omega
              | true =>
                simp only [if_true] at h ⊢
                by_cases hlazy : lazyCloseThen matchElseTail x = true
                · have := lazyCloseThen_count (fun r hr => matchElseTail_count hr) hlazy
                  omega
                · rw [if_neg hlazy] at h
                  cases h

theorem findIfdefMatch_none_of_lt {we : Bool} :
    ∀ {l : LC}, l.count '\x7b' < (if we then 4 else 2) → findIfdefMatch we l = none := by
  intro l
  induction l with
  | nil => intro _; rfl
  | cons c rest ih =>
    intro h
    simp only [findIfdefMatch]
    cases hm : matchIfdefAt we (c :: rest) with
    | some r => exact absurd (matchIfdefAt_count hm) (not_le.mpr h)
    | none =>
      have hr : rest.count '\x7b' < (if we then 4 else 2) := by
        rw [List.count_cons] at h
        have hb : rest.count '\x7b' ≤
            rest.count '\x7b' + (if c == '\x7b' then 1 else 0) := by
          split <;> omega
        omega
      rw [ih hr]
      rfl

theorem pyStrip_subset {l : LC} : ∀ c ∈ pyStrip l, c ∈ l := by
  intro c hc
  simp only [pyStrip, List.mem_reverse] at hc
  have h1 : c ∈ (l.dropWhile isSpacePy).reverse :=
    (List.dropWhile_sublist _).subset hc
  rw [List.mem_reverse] at h1
  exact (List.dropWhile_sublist _).subset h1

theorem count_zero_of_raw {l : LC} (h : ∀ c ∈ l, isRawChar c = true) :
    l.count '\x7b' = 0 := by
  rw [List.count_eq_zero]
  intro hmem
  have := h _ hmem
  simp [isRawChar] at this

theorem findIfdefMatch_none_of_raw {we : Bool} {l : LC}
    (h : ∀ c ∈ l, isRawChar c = true) : findIfdefMatch we l = none := by
  apply findIfdefMatch_none_of_lt
  rw [count_zero_of_raw h]
  cases we <;> simp

theorem findIfdefMatch_at0 {we : Bool} {doc : LC} {cond : CondKind} {arg : LC}
    (hne : doc ≠ []) (hm : matchIfdefAt we doc = some (cond, arg)) :
    findIfdefMatch we doc = some (0, cond, arg) := by
  cases doc with
  | nil => exact absurd rfl hne
  | cons c rest => simp [findIfdefMatch, hm]

theorem condLit_raw {cond : CondKind} {c : Char} (h : c ∈ condLit cond) :
    isRawChar c = true := by
  cases cond
  · replace h : c ∈ ['I', 'F', 'D', 'E', 'F', '('] := h
    fin_cases h <;> decide
  · replace h : c ∈ ['I', 'F', 'N', 'D', 'E', 'F', '('] := h
    fin_cases h <;> decide

theorem lazyCloseThen_append (p : LC → Bool) :
    ∀ (A : LC), (∀ c ∈ A, isRawChar c = true) → ∀ l,
      lazyCloseThen p (A ++ l) = lazyCloseThen p l := by
  intro A
  induction A with
  | nil => intro _ l; rfl
  | cons c A' ih =>
    intro hA l
    have hc := raw_not_close (hA c (List.mem_cons_self c A'))
    have htl := ih (fun d hd => hA d (List.mem_cons_of_mem c hd)) l
    cases hAl : A' ++ l with
    | nil =>
      obtain ⟨rfl, rfl⟩ := List.append_eq_nil.mp hAl
      rfl
    | cons d r =>
      calc lazyCloseThen p (c :: A' ++ l)
          = lazyCloseThen p (c :: d :: r) := by rw [List.cons_append, hAl]
        _ = ((c == '\x7d' && d == '\x7d' && p r) || lazyCloseThen p (d :: r)) := by
            rw [lazyCloseThen]
        _ = lazyCloseThen p (d :: r) := by rw [hc]; simp
        _ = lazyCloseThen p l := by rw [← hAl, htl]

theorem containsClose_append_right : ∀ (X r : LC), containsClose r = true →
    containsClose (X ++ r) = true := by
  intro X
  induction X with
  | nil => intro r h; simpa using h
  | cons c X' ih =>
    intro r h
    have h2 := ih r h
    cases hx : X' ++ r with
    | nil =>
      rw [hx] at h2
      cases h2
    | cons d rest =>
      rw [List.cons_append, hx, containsClose, Bool.or_eq_true]
      right
      rw [← hx]
      exact h2

theorem matchCondAt_lit (cond : CondKind) (rest : LC) :
    matchCondAt (condLit cond ++ rest) = some (cond, '(' :: rest) := by
  cases cond <;> rfl

theorem expectChar_cons_self (c : Char) (l : LC) : expectChar c (c :: l) = some l := by
  simp [expectChar]

theorem takeWhile_condArg_paren (X : LC) :
    (chars (") \x7b\x7b") ++ X).takeWhile isCondArgChar = [] := rfl

theorem expectChar_paren (X : LC) :
    expectChar ')' (chars (") \x7b\x7b") ++ X) = some (' ' :: '\x7b' :: '\x7b' :: X) := rfl

theorem dropWhile_space_open (X : LC) :
    (' ' :: '\x7b' :: '\x7b' :: X).dropWhile isSpacePy = '\x7b' :: '\x7b' :: X := rfl

theorem lazy_elseChunk (B : LC) :
    lazyCloseThen matchElseTail
      (chars ("\x7d\x7d ELSE \x7b\x7b") ++ (B ++ chars ("\x7d\x7d"))) = true := by
  have hm : matchElseTail
      (' ' :: 'E' :: 'L' :: 'S' :: 'E' :: ' ' :: '\x7b' :: '\x7b' ::
        (B ++ chars ("\x7d\x7d"))) = true := by
    show containsClose (B ++ chars ("\x7d\x7d")) = true
    exact containsClose_append_right B _ (by decide)
  rw [show (chars ("\x7d\x7d ELSE \x7b\x7b") ++ (B ++ chars ("\x7d\x7d"))) =
      '\x7d' :: '\x7d' :: (' ' :: 'E' :: 'L' :: 'S' :: 'E' :: ' ' :: '\x7b' :: '\x7b' ::
        (B ++ chars ("\x7d\x7d"))) from rfl]
  rw [lazyCloseThen, hm]
  simp

theorem close_bareChunk (A : LC) :
    containsClose (A ++ chars ("\x7d\x7d")) = true :=
  containsClose_append_right A _ (by decide)

theorem name_isEmpty_false {name : LC} (hn : name ≠ []) : name.isEmpty = false := by
  cases name with
  | nil => exact absurd rfl hn
  | cons c r => rfl

/-- `IFDEF_ELSE_REGEX` matches at the head of a well-formed
`COND(NAME) {{A}} ELSE {{B}}` document, capturing the condition and the
name. -/
theorem matchIfdefAt_elseDoc (cond : CondKind) (name A B : LC) (hn : name ≠ [])
    (hnc : ∀ c ∈ name, isCondArgChar c = true) (hA : ∀ c ∈ A, isRawChar c = true) :
    matchIfdefAt true (ifdefElseDoc cond name A B) = some (cond, name) := by
  simp only [ifdefElseDoc, matchIfdefAt, List.append_assoc]
  rw [matchCondAt_lit]
  simp only [Option.some_bind, expectChar_cons_self,
    List.takeWhile_append_of_pos hnc, takeWhile_condArg_paren, List.append_nil,
    name_isEmpty_false hn, Bool.false_eq_true, if_false, List.drop_left,
    expectChar_paren, dropWhile_space_open, expectChar_cons_self,
    lazyCloseThen_append matchElseTail A hA, lazy_elseChunk, if_true]

/-- `IFDEF_REGEX` matches at the head of a well-formed bare
`COND(NAME) {{A}}` document. -/
theorem matchIfdefAt_bareDoc (cond : CondKind) (name A : LC) (hn : name ≠ [])
    (hnc : ∀ c ∈ name, isCondArgChar c = true) (hA : ∀ c ∈ A, isRawChar c = true) :
    matchIfdefAt false (ifdefBareDoc cond name A) = some (cond, name) := by
  simp only [ifdefBareDoc, matchIfdefAt, List.append_assoc]
  rw [matchCondAt_lit]
  simp only [Option.some_bind, expectChar_cons_self,
    List.takeWhile_append_of_pos hnc, takeWhile_condArg_paren, List.append_nil,
    name_isEmpty_false hn, Bool.false_eq_true, if_false, List.drop_left,
    expectChar_paren, dropWhile_space_open, expectChar_cons_self,
    close_bareChunk, if_true]

theorem drop_after_block (pre mid tail : LC) :
    (pre ++ '\x7b' :: '\x7b' :: (mid ++ '\x7d' :: '\x7d' :: tail)).drop
      (pre.length + (mid.length + 4)) = tail := by
  rw [List.drop_append (mid.length + 4)]
  show ('\x7b' :: ('\x7b' :: (mid ++ '\x7d' :: '\x7d' :: tail))).drop ((mid.length + 3) + 1) = tail
  rw [List.drop_succ_cons]
  show ('\x7b' :: (mid ++ '\x7d' :: '\x7d' :: tail)).drop ((mid.length + 2) + 1) = tail
  rw [List.drop_succ_cons, List.drop_append 2]
  rfl

theorem findOpenSplit_pre :
    ∀ (pre : LC), (∀ c ∈ pre, isRawChar c = true) → ∀ (rest : LC),
      findOpenSplit (pre ++ '\x7b' :: '\x7b' :: rest) = some rest := by
  intro pre
  induction pre with
  | nil => intro _ rest; simp [findOpenSplit]
  | cons c pre' ih =>
    intro hpre rest
    have hc := raw_not_open (hpre c (List.mem_cons_self c pre'))
    have htl := ih (fun d hd => hpre d (List.mem_cons_of_mem c hd)) rest
    cases pre' with
    | nil =>
      simp only [List.nil_append] at htl
      simp only [List.cons_append, List.nil_append, findOpenSplit, hc,
        Bool.false_and, Bool.false_eq_true, if_false]
      exact htl
    | cons d pre'' =>
      simp only [List.cons_append, findOpenSplit, hc, Bool.false_and,
        Bool.false_eq_true, if_false]
      simpa using htl

theorem block_contents_block (pre mid : LC) (hpre : ∀ c ∈ pre, isRawChar c = true) :
    block_contents (pre ++ '\x7b' :: '\x7b' :: (mid ++ ['\x7d', '\x7d'])) = mid := by
  simp only [block_contents, findOpenSplit_pre pre hpre, Option.getD_some]
  have h : (mid ++ ['\x7d', '\x7d']).length - 2 = mid.length := by simp
  rw [h, List.take_left]

/-- `read_block` at offset 0 of a decomposed block returns exactly the
block. -/
theorem read_block_decomposed (pre mid tail : LC)
    (hpre : ∀ c ∈ pre, isRawChar c = true) (hmid : ∀ c ∈ mid, isRawChar c = true) :
    read_block 0 (pre ++ '\x7b' :: '\x7b' :: (mid ++ '\x7d' :: '\x7d' :: tail)) =
      .ok (pre ++ '\x7b' :: '\x7b' :: (mid ++ ['\x7d', '\x7d'])) := by
  simp only [read_block, List.drop_zero, readBlockLoop_block pre mid tail hpre hmid]
  rw [if_neg (by simp)]
  congr 1
  rw [List.take_append]
  congr 1
  show ('\x7b' :: '\x7b' :: (mid ++ '\x7d' :: '\x7d' :: tail)).take ((mid.length + 3) + 1) = _
  rw [List.take_succ_cons]
  show '\x7b' :: ('\x7b' :: (mid ++ '\x7d' :: '\x7d' :: tail)).take ((mid.length + 2) + 1) = _
  rw [List.take_succ_cons, List.take_append]
  rfl

theorem elsePRE_raw (cond : CondKind) (name : LC)
    (hnc : ∀ c ∈ name, isCondArgChar c = true) :
    ∀ c ∈ condLit cond ++ (name ++ [')', ' ']), isRawChar c = true := by
  intro c hc
  rcases List.mem_append.mp hc with h1 | h2
  · exact condLit_raw h1
  · rcases List.mem_append.mp h2 with h3 | h4
    · exact condArg_raw (hnc c h3)
    · replace h4 : c ∈ [')', ' '] := h4
      fin_cases h4 <;> decide

theorem ifdefElseDoc_decomp (cond : CondKind) (name A B : LC) :
    ifdefElseDoc cond name A B =
      (condLit cond ++ (name ++ [')', ' '])) ++
        '\x7b' :: '\x7b' ::
          (A ++ '\x7d' :: '\x7d' ::
            ([' ', 'E', 'L', 'S', 'E', ' '] ++
              '\x7b' :: '\x7b' :: (B ++ ['\x7d', '\x7d']))) := by
  simp only [ifdefElseDoc, List.append_assoc]
  rfl

theorem ifdefBareDoc_decomp (cond : CondKind) (name A : LC) :
    ifdefBareDoc cond name A =
      (condLit cond ++ (name ++ [')', ' '])) ++
        '\x7b' :: '\x7b' :: (A ++ '\x7d' :: '\x7d' :: []) := by
  simp only [ifdefBareDoc, List.append_assoc]
  rfl

theorem matchElseOpen_tail (B : LC) :
    matchElseOpen
      ([' ', 'E', 'L', 'S', 'E', ' '] ++ '\x7b' :: '\x7b' :: (B ++ ['\x7d', '\x7d'])) =
    true := rfl

/-- `read_ifdef_block` on a well-formed `COND(NAME) {{A}} ELSE {{B}}`
document returns the `if` block, the `else` block, and their
concatenation. -/
theorem read_ifdef_block_elseDoc (cond : CondKind) (name A B : LC)
    (hnc : ∀ c ∈ name, isCondArgChar c = true)
    (hA : ∀ c ∈ A, isRawChar c = true) (hB : ∀ c ∈ B, isRawChar c = true) :
    read_ifdef_block 0 (ifdefElseDoc cond name A B) =
      .ok ((condLit cond ++ (name ++ [')', ' '])) ++
            '\x7b' :: '\x7b' :: (A ++ ['\x7d', '\x7d']),
          [' ', 'E', 'L', 'S', 'E', ' '] ++ '\x7b' :: '\x7b' :: (B ++ ['\x7d', '\x7d']),
          ((condLit cond ++ (name ++ [')', ' '])) ++
            '\x7b' :: '\x7b' :: (A ++ ['\x7d', '\x7d'])) ++
            ([' ', 'E', 'L', 'S', 'E', ' '] ++ '\x7b' :: '\x7b' :: (B ++ ['\x7d', '\x7d']))) := by
  have hpre := elsePRE_raw cond name hnc
  have h1 : read_block 0 (ifdefElseDoc cond name A B) =
      .ok ((condLit cond ++ (name ++ [')', ' '])) ++
        '\x7b' :: '\x7b' :: (A ++ ['\x7d', '\x7d'])) := by
    rw [ifdefElseDoc_decomp]
    exact read_block_decomposed _ _ _ hpre hA
  have hlen : ((condLit cond ++ (name ++ [')', ' '])) ++
      '\x7b' :: '\x7b' :: (A ++ ['\x7d', '\x7d'])).length =
      (condLit cond ++ (name ++ [')', ' '])).length + (A.length + 4) := by
    simp [List.length_append]
    omega
  have h2 : (ifdefElseDoc cond name A B).drop
      ((condLit cond ++ (name ++ [')', ' '])).length + (A.length + 4)) =
      [' ', 'E', 'L', 'S', 'E', ' '] ++ '\x7b' :: '\x7b' :: (B ++ ['\x7d', '\x7d']) := by
    rw [ifdefElseDoc_decomp]
    exact drop_after_block _ _ _
  have h4 : read_block
      ((condLit cond ++ (name ++ [')', ' '])).length + (A.length + 4))
      (ifdefElseDoc cond name A B) =
      .ok ([' ', 'E', 'L', 'S', 'E', ' '] ++ '\x7b' :: '\x7b' :: (B ++ ['\x7d', '\x7d'])) := by
    rw [read_block_shift, h2]
    exact read_block_decomposed [' ', 'E', 'L', 'S', 'E', ' '] B [] (by decide) hB
  simp only [read_ifdef_block, h1]
  rw [Nat.zero_add, hlen, h2, matchElseOpen_tail B, if_pos rfl]
  simp only [h4]

/-- `read_ifdef_block` on a well-formed bare `COND(NAME) {{A}}` document
returns the `if` block and an empty `else` block. -/
theorem read_ifdef_block_bareDoc (cond : CondKind) (name A : LC)
    (hnc : ∀ c ∈ name, isCondArgChar c = true)
    (hA : ∀ c ∈ A, isRawChar c = true) :
    read_ifdef_block 0 (ifdefBareDoc cond name A) =
      .ok ((condLit cond ++ (name ++ [')', ' '])) ++
            '\x7b' :: '\x7b' :: (A ++ ['\x7d', '\x7d']),
          [],
          ((condLit cond ++ (name ++ [')', ' '])) ++
            '\x7b' :: '\x7b' :: (A ++ ['\x7d', '\x7d'])) ++ []) := by
  have hpre := elsePRE_raw cond name hnc
  have h1 : read_block 0 (ifdefBareDoc cond name A) =
      .ok ((condLit cond ++ (name ++ [')', ' '])) ++
        '\x7b' :: '\x7b' :: (A ++ ['\x7d', '\x7d'])) := by
    rw [ifdefBareDoc_decomp]
    exact read_block_decomposed _ _ _ hpre hA
  have hlen : ((condLit cond ++ (name ++ [')', ' '])) ++
      '\x7b' :: '\x7b' :: (A ++ ['\x7d', '\x7d'])).length =
      (condLit cond ++ (name ++ [')', ' '])).length + (A.length + 4) := by
    simp [List.length_append]
    omega
  have h2 : (ifdefBareDoc cond name A).drop
      ((condLit cond ++ (name ++ [')', ' '])).length + (A.length + 4)) = [] := by
    rw [ifdefBareDoc_decomp]
    exact drop_after_block _ _ []
  simp only [read_ifdef_block, h1]
  rw [Nat.zero_add, hlen, h2,
    show matchElseOpen [] = false from rfl]
  simp only [Bool.false_eq_true, if_false]

/-- `process_ifdefs` on a well-formed `COND(NAME) {{A}} ELSE {{B}}`
document (the bodies free of braces) yields the trimmed selected branch:
`A` when the condition agrees with `NAME ∈ kwargs`, `B` otherwise. -/
theorem processIfdefs_elseDoc (cond : CondKind) (name A B : LC) (kwargs : ParamSet)
    (hn : name ≠ []) (hnc : ∀ c ∈ name, isCondArgChar c = true)
    (hA : ∀ c ∈ A, isRawChar c = true) (hB : ∀ c ∈ B, isRawChar c = true) :
    process_ifdefs (ifdefElseDoc cond name A B) kwargs =
      some (.ok (if (cond == CondKind.cifdef && hasKeyD kwargs name) ||
          (cond == CondKind.cifndef && !hasKeyD kwargs name) then
        pyStrip A else pyStrip B)) := by
  have hpre := elsePRE_raw cond name hnc
  have hne : ifdefElseDoc cond name A B ≠ [] := by
    rw [ifdefElseDoc_decomp]
    intro h
    obtain ⟨-, h2⟩ := List.append_eq_nil.mp h
    cases h2
  have hm0 : findIfdefMatch true (ifdefElseDoc cond name A B) = some (0, cond, name) :=
    findIfdefMatch_at0 hne (matchIfdefAt_elseDoc cond name A B hn hnc hA)
  have hr0 := read_ifdef_block_elseDoc cond name A B hnc hA hB
  have hfull : ((condLit cond ++ (name ++ [')', ' '])) ++
        '\x7b' :: '\x7b' :: (A ++ ['\x7d', '\x7d'])) ++
        ([' ', 'E', 'L', 'S', 'E', ' '] ++ '\x7b' :: '\x7b' :: (B ++ ['\x7d', '\x7d'])) =
      ifdefElseDoc cond name A B := by
    rw [ifdefElseDoc_decomp]
    simp only [List.append_assoc, List.cons_append, List.nil_append]
  have hbcA : block_contents ((condLit cond ++ (name ++ [')', ' '])) ++
      '\x7b' :: '\x7b' :: (A ++ ['\x7d', '\x7d'])) = A :=
    block_contents_block _ A hpre
  have hbcB : block_contents ([' ', 'E', 'L', 'S', 'E', ' '] ++
      '\x7b' :: '\x7b' :: (B ++ ['\x7d', '\x7d'])) = B :=
    block_contents_block _ B (by decide)
  have hrepl : ifdefRepl kwargs cond name
      ((condLit cond ++ (name ++ [')', ' '])) ++ '\x7b' :: '\x7b' :: (A ++ ['\x7d', '\x7d']))
      ([' ', 'E', 'L', 'S', 'E', ' '] ++ '\x7b' :: '\x7b' :: (B ++ ['\x7d', '\x7d'])) =
      (if (cond == CondKind.cifdef && hasKeyD kwargs name) ||
          (cond == CondKind.cifndef && !hasKeyD kwargs name) then
        pyStrip A else pyStrip B) := by
    simp only [ifdefRepl, hbcA, hbcB]
  have hraw2 : ∀ c ∈ (if (cond == CondKind.cifdef && hasKeyD kwargs name) ||
      (cond == CondKind.cifndef && !hasKeyD kwargs name) then
        pyStrip A else pyStrip B), isRawChar c = true := by
    split
    · intro c hc
      exact hA c (pyStrip_subset c hc)
    · intro c hc
      exact hB c (pyStrip_subset c hc)
  have hdl : 1 ≤ (ifdefElseDoc cond name A B).length := by
    rw [ifdefElseDoc_decomp]
    simp [List.length_append]
    omega
  obtain ⟨m, hm'⟩ : ∃ m, (ifdefElseDoc cond name A B).length = m + 1 :=
    ⟨(ifdefElseDoc cond name A B).length - 1, by omega⟩
  have hpass1 : ifdefLoop true kwargs ((ifdefElseDoc cond name A B).length + 1)
      (ifdefElseDoc cond name A B) =
      some (.ok (if (cond == CondKind.cifdef && hasKeyD kwargs name) ||
          (cond == CondKind.cifndef && !hasKeyD kwargs name) then
        pyStrip A else pyStrip B)) := by
    rw [ifdefLoop_succ_step hm0 hr0, hfull, replace1_eq_self _ _ hne, hrepl, hm',
      ifdefLoop_succ_none (findIfdefMatch_none_of_raw hraw2)]
  simp only [process_ifdefs, hpass1]
  exact ifdefLoop_succ_none (findIfdefMatch_none_of_raw hraw2)

/-- `process_ifdefs` on a well-formed bare `COND(NAME) {{A}}` document
yields the trimmed body when the condition holds and the empty string
otherwise (the bare form has an empty `else` block). -/
theorem processIfdefs_bareDoc (cond : CondKind) (name A : LC) (kwargs : ParamSet)
    (hn : name ≠ []) (hnc : ∀ c ∈ name, isCondArgChar c = true)
    (hA : ∀ c ∈ A, isRawChar c = true) :
    process_ifdefs (ifdefBareDoc cond name A) kwargs =
      some (.ok (if (cond == CondKind.cifdef && hasKeyD kwargs name) ||
          (cond == CondKind.cifndef && !hasKeyD kwargs name) then
        pyStrip A else [])) := by
  have hpre := elsePRE_raw cond name hnc
  have hne : ifdefBareDoc cond name A ≠ [] := by
    rw [ifdefBareDoc_decomp]
    intro h
    obtain ⟨-, h2⟩ := List.append_eq_nil.mp h
    cases h2
  have hcnt : (ifdefBareDoc cond name A).count '\x7b' = 2 := by
    rw [ifdefBareDoc_decomp, List.count_append, count_zero_of_raw hpre, count_open2,
      List.count_append, count_zero_of_raw hA]
    decide
  have hm1 : findIfdefMatch true (ifdefBareDoc cond name A) = none :=
    findIfdefMatch_none_of_lt (by rw [hcnt]; decide)
  have hm0 : findIfdefMatch false (ifdefBareDoc cond name A) = some (0, cond, name) :=
    findIfdefMatch_at0 hne (matchIfdefAt_bareDoc cond name A hn hnc hA)
  have hr0 := read_ifdef_block_bareDoc cond name A hnc hA
  have hfull : ((condLit cond ++ (name ++ [')', ' '])) ++
        '\x7b' :: '\x7b' :: (A ++ ['\x7d', '\x7d'])) ++ ([] : LC) =
      ifdefBareDoc cond name A := by
    rw [List.append_nil, ifdefBareDoc_decomp]
  have hbcA : block_contents ((condLit cond ++ (name ++ [')', ' '])) ++
      '\x7b' :: '\x7b' :: (A ++ ['\x7d', '\x7d'])) = A :=
    block_contents_block _ A hpre
  have hrepl : ifdefRepl kwargs cond name
      ((condLit cond ++ (name ++ [')', ' '])) ++ '\x7b' :: '\x7b' :: (A ++ ['\x7d', '\x7d']))
      ([] : LC) =
      (if (cond == CondKind.cifdef && hasKeyD kwargs name) ||
          (cond == CondKind.cifndef && !hasKeyD kwargs name) then
        pyStrip A else []) := by
    simp only [ifdefRepl, hbcA, show pyStrip (block_contents ([] : LC)) = [] from rfl]
  have hraw2 : ∀ c ∈ (if (cond == CondKind.cifdef && hasKeyD kwargs name) ||
      (cond == CondKind.cifndef && !hasKeyD kwargs name) then
        pyStrip A else []), isRawChar c = true := by
    split
    · intro c hc
      exact hA c (pyStrip_subset c hc)
    · intro c hc
      exact absurd hc (List.not_mem_nil c)
  have hdl : 1 ≤ (ifdefBareDoc cond name A).length := by
    rw [ifdefBareDoc_decomp]
    simp [List.length_append]
    omega
  obtain ⟨m, hm'⟩ : ∃ m, (ifdefBareDoc cond name A).length = m + 1 :=
    ⟨(ifdefBareDoc cond name A).length - 1, by omega⟩
  have hpass1 : ifdefLoop true kwargs ((ifdefBareDoc cond name A).length + 1)
      (ifdefBareDoc cond name A) = some (.ok (ifdefBareDoc cond name A)) :=
    ifdefLoop_succ_none hm1
  simp only [process_ifdefs, hpass1]
  rw [ifdefLoop_succ_step hm0 hr0, hfull, replace1_eq_self _ _ hne, hrepl, hm',
    ifdefLoop_succ_none (findIfdefMatch_none_of_raw hraw2)]

/-- C1: for every well-formed conditional form `IFDEF(NAME) {{A}} ELSE {{B}}`
(nonempty identifier `NAME` of word characters, brace-free bodies `A`, `B`),
`process_ifdefs` with a parameter set containing key `NAME` replaces the whole
form with `A` trimmed of leading/trailing whitespace and with a parameter set
not containing `NAME` replaces it with `B` trimmed; `IFNDEF` inverts the
selection; and a bare `IFDEF(NAME) {{A}}` with no `ELSE` and `NAME` absent is
replaced by the empty string. -/
theorem C1_conditional_resolution (name A B : LC) (kwargs : ParamSet)
    (hn : name ≠ []) (hnc : ∀ c ∈ name, isCondArgChar c = true)
    (hA : ∀ c ∈ A, isRawChar c = true) (hB : ∀ c ∈ B, isRawChar c = true) :
    (process_ifdefs (ifdefElseDoc CondKind.cifdef name A B) kwargs =
      some (.ok (if hasKeyD kwargs name then pyStrip A else pyStrip B))) ∧
    (process_ifdefs (ifdefElseDoc CondKind.cifndef name A B) kwargs =
      some (.ok (if hasKeyD kwargs name then pyStrip B else pyStrip A))) ∧
    (hasKeyD kwargs name = false →
      process_ifdefs (ifdefBareDoc CondKind.cifdef name A) kwargs = some (.ok [])) := by
  have e1 : (CondKind.cifdef == CondKind.cifdef) = true := rfl
  have e2 : (CondKind.cifdef == CondKind.cifndef) = false := rfl
  have e3 : (CondKind.cifndef == CondKind.cifdef) = false := rfl
  have e4 : (CondKind.cifndef == CondKind.cifndef) = true := rfl
  refine ⟨?_, ?_, ?_⟩
  · rw [processIfdefs_elseDoc CondKind.cifdef name A B kwargs hn hnc hA hB]
    simp only [e1, e2, Bool.true_and, Bool.false_and, Bool.or_false]
  · rw [processIfdefs_elseDoc CondKind.cifndef name A B kwargs hn hnc hA hB]
    simp only [e3, e4, Bool.true_and, Bool.false_and, Bool.false_or]
    cases hh : hasKeyD kwargs name <;> simp
  · intro hh
    rw [processIfdefs_bareDoc CondKind.cifdef name A kwargs hn hnc hA]
    simp only [e1, e2, Bool.true_and, Bool.false_and, Bool.or_false, hh,
      Bool.false_eq_true, if_false]

/-- Concrete instance of `C1_conditional_resolution`:
`IFDEF(X) {{ hi }} ELSE {{bye}}` with `X` defined resolves to `hi`,
`IFNDEF(X) {{ hi }} ELSE {{bye}}` with `X` defined resolves to `bye`,
and bare `IFDEF(X) {{ hi }}` with `X` undefined resolves to the empty
string. -/
theorem C1_conditional_resolution_witness :
    (process_ifdefs
        (ifdefElseDoc CondKind.cifdef (chars ("X")) (chars (" hi ")) (chars ("bye")))
        [(chars ("X"), [])] = some (.ok (chars ("hi")))) ∧
    (process_ifdefs
        (ifdefElseDoc CondKind.cifndef (chars ("X")) (chars (" hi ")) (chars ("bye")))
        [(chars ("X"), [])] = some (.ok (chars ("bye")))) ∧
    (process_ifdefs (ifdefBareDoc CondKind.cifdef (chars ("X")) (chars (" hi "))) [] =
      some (.ok [])) := by
  have h1 := C1_conditional_resolution (chars ("X")) (chars (" hi ")) (chars ("bye"))
    [(chars ("X"), [])] (by decide) (by decide) (by decide) (by decide)
  have h2 := C1_conditional_resolution (chars ("X")) (chars (" hi ")) (chars ("bye"))
    [] (by decide) (by decide) (by decide) (by decide)
  refine ⟨?_, ?_, ?_⟩
  · rw [h1.1]
    decide
  · rw [h1.2.1]
    decide
  · exact h2.2.2 (by decide)

theorem condArg_not_space {c : Char} (h : isCondArgChar c = true) :
    isSpacePy c = false := by
  cases hsp : isSpacePy c
  · rfl
  · exfalso
    simp only [isSpacePy, Bool.or_eq_true, beq_iff_eq] at hsp
    rcases hsp with ((((rfl | rfl) | rfl) | rfl) | rfl) | rfl <;>
      revert h <;> decide

theorem isPrefixL_open_false {l : LC} (h : ('\x7b' : Char) ∉ l) :
    isPrefixL (chars ("\x7b\x7b")) l = false := by
  cases l with
  | nil => rfl
  | cons d r =>
    have hd : (d == '\x7b') = false := by
      rw [beq_eq_false_iff_ne]
      intro hdd
      exact h (hdd ▸ List.mem_cons_self d r)
    show (('\x7b' == d) && isPrefixL (chars ("\x7b")) r) = false
    rw [show ('\x7b' == d) = (d == '\x7b') from by rw [BEq.comm], hd, Bool.false_and]

theorem matchIdentOpen_no_open {ident s : LC} (h : ('\x7b' : Char) ∉ s) :
    matchIdentOpenAt ident s = false := by
  have hx : ('\x7b' : Char) ∉ (s.drop ident.length).dropWhile isSpacePy := by
    intro hm
    exact h ((List.drop_sublist ident.length s).subset
      ((List.dropWhile_sublist isSpacePy).subset hm))
  simp only [matchIdentOpenAt, isPrefixL_open_false hx, Bool.and_false]

theorem searchIdentOpen_cons_neg {ident : LC} {c : Char} {r : LC}
    (hm : matchIdentOpenAt ident (c :: r) = false) :
    searchIdentOpen ident (c :: r) = (searchIdentOpen ident r).map (· + 1) := by
  simp only [searchIdentOpen, hm, Bool.false_eq_true, if_false]

theorem searchIdentOpen_none_of_no_open (ident : LC) :
    ∀ (s : LC), ('\x7b' : Char) ∉ s → searchIdentOpen ident s = none := by
  intro s
  induction s with
  | nil => intro _; rfl
  | cons c r ih =>
    intro h
    rw [searchIdentOpen_cons_neg (matchIdentOpen_no_open h),
      ih (fun hr => h (List.mem_cons_of_mem c hr))]
    rfl

theorem matchCondAt_mem {s t : LC} {cond : CondKind}
    (h : matchCondAt s = some (cond, t)) : ∀ c ∈ t, c ∈ s := by
  unfold matchCondAt at h
  split at h
  all_goals
    first
      | (simp only [Option.some.injEq, Prod.mk.injEq] at h
         obtain ⟨rfl, rfl⟩ := h
         intro c hc
         simp only [List.mem_cons]
         tauto)
      | (cases h)

theorem matchIfdefAt_none_of_no_paren {we : Bool} {s : LC}
    (h : ('(' : Char) ∉ s) : matchIfdefAt we s = none := by
  simp only [matchIfdefAt]
  cases hc : matchCondAt s with
  | none => rfl
  | some ct =>
    simp only [Option.some_bind]
    cases he : expectChar '(' ct.2 with
    | none => rfl
    | some u =>
      exfalso
      have hp : ('(' : Char) ∈ ct.2 := by
        rw [expectChar_eq he]
        exact List.mem_cons_self '(' u
      exact h (matchCondAt_mem hc '(' hp)

theorem findIfdefMatch_none_of_no_paren {we : Bool} :
    ∀ {l : LC}, ('(' : Char) ∉ l → findIfdefMatch we l = none := by
  intro l
  induction l with
  | nil => intro _; rfl
  | cons c rest ih =>
    intro h
    simp only [findIfdefMatch]
    cases hm : matchIfdefAt we (c :: rest) with
    | some r =>
      rw [matchIfdefAt_none_of_no_paren h] at hm
      cases hm
    | none =>
      rw [ih (fun hr => h (List.mem_cons_of_mem c hr))]
      rfl

theorem kwargPlaceholdersFuel_nil (f : Nat) : kwargPlaceholdersFuel f [] = [] := by
  cases f <;> rfl

theorem replaceAllFuel_nil (pat repl : LC) (f : Nat) :
    replaceAllFuel pat repl f [] = [] := by
  cases f <;> rfl

theorem replaceAll_self_empty (l : LC) (h : l ≠ []) : replaceAll l [] l = [] := by
  cases hl : l with
  | nil => exact absurd hl h
  | cons c r =>
    show replaceAllFuel (c :: r) [] (c :: r).length (c :: r) = []
    simp only [List.length_cons, replaceAllFuel]
    rw [if_pos ⟨List.cons_ne_nil c r, isPrefixL_refl (c :: r)⟩]
    rw [List.nil_append, List.drop_succ_cons,
      show (List.drop r.length r) = [] from List.drop_length r, replaceAllFuel_nil]

theorem processHtml_succ_nomatch {env : Env} {f : Nat} {html : LC}
    (hm : findSubstMatch html = none) :
    processHtml env (f + 1) html = some (.ok html) := by
  simp only [processHtml, hm]

theorem matchKwargPlaceholderAt_doc (KEY : LC) (hn : KEY ≠ [])
    (hkc : ∀ c ∈ KEY, isCondArgChar c = true) :
    matchKwargPlaceholderAt ('\x7b' :: '\x7b' :: (KEY ++ ['\x7d', '\x7d'])) =
      some (KEY.length + 4, KEY) := by
  cases KEY with
  | nil => exact absurd rfl hn
  | cons k K' =>
    have hks : isSpacePy k = false := condArg_not_space (hkc k (List.mem_cons_self k K'))
    have ht : (((k :: K') ++ ['\x7d', '\x7d']).takeWhile isSpacePy) = [] := by
      rw [List.cons_append, List.takeWhile_cons_of_neg (by simp [hks])]
    have hu : (((k :: K') ++ ['\x7d', '\x7d']).takeWhile isCondArgChar) = k :: K' := by
      rw [List.takeWhile_append_of_pos hkc,
        show ((['\x7d', '\x7d'] : LC).takeWhile isCondArgChar) = [] from rfl,
        List.append_nil]
    have hv : (((k :: K') ++ ['\x7d', '\x7d']).drop (k :: K').length) =
        ['\x7d', '\x7d'] := List.drop_left _ _
    simp only [matchKwargPlaceholderAt, ht, List.length_nil, List.drop_zero, hu, hv,
      List.isEmpty_cons, Bool.false_eq_true, if_false,
      show ((['\x7d', '\x7d'] : LC).takeWhile isSpacePy) = [] from rfl]
    have harith : 2 + 0 + (k :: K').length + 0 + 2 = (k :: K').length + 4 := by omega
    rw [harith]

theorem kwargPlaceholders_singleDoc (KEY : LC) (hn : KEY ≠ [])
    (hkc : ∀ c ∈ KEY, isCondArgChar c = true) :
    kwargPlaceholders (chars ("\x7b\x7b") ++ KEY ++ chars ("\x7d\x7d")) =
      [(chars ("\x7b\x7b") ++ KEY ++ chars ("\x7d\x7d"), KEY)] := by
  have hdoc : chars ("\x7b\x7b") ++ KEY ++ chars ("\x7d\x7d") =
      '\x7b' :: '\x7b' :: (KEY ++ ['\x7d', '\x7d']) := rfl
  have hslen : ('\x7b' :: '\x7b' :: (KEY ++ ['\x7d', '\x7d'])).length =
      KEY.length + 4 := by
    simp [List.length_append]
  have hlen : (chars ("\x7b\x7b") ++ KEY ++ chars ("\x7d\x7d")).length = KEY.length + 4 := by
    rw [hdoc]
    exact hslen
  have hm := matchKwargPlaceholderAt_doc KEY hn hkc
  have htake : ('\x7b' :: '\x7b' :: (KEY ++ ['\x7d', '\x7d'])).take
      (KEY.length + 4) = '\x7b' :: '\x7b' :: (KEY ++ ['\x7d', '\x7d']) := by
    rw [← hslen, List.take_length]
  have hdrop : ('\x7b' :: '\x7b' :: (KEY ++ ['\x7d', '\x7d'])).drop
      (KEY.length + 4) = [] := by
    rw [← hslen, List.drop_length]
  simp only [kwargPlaceholders]
  rw [hlen, hdoc]
  simp only [kwargPlaceholdersFuel, hm, htake, hdrop, kwargPlaceholdersFuel_nil]

/-- One-step computation of `process_kwarg_html` when no `PREAMBLE` block is
present, the conditional passes rewrite `html` to `h2`, the placeholder loop
rewrites `h2` to `h3`, and `h3` has no macro match left. -/
theorem processKwargHtml_closed (env : Env) (f : Nat) (html : LC) (kwargs : ParamSet)
    (h2 h3 : LC)
    (hs : searchIdentOpen (chars ("PREAMBLE")) html = none)
    (hi : process_ifdefs html kwargs = some (.ok h2))
    (hfold : (kwargPlaceholders h2).foldl
        (fun acc m => replaceAll m.1 ((dictGet kwargs m.2).getD []) acc) h2 = h3)
    (hno : findSubstMatch h3 = none) :
    processKwargHtml env (f + 2) html kwargs = some (.ok h3) := by
  have hp : processPreamble env html kwargs = (html, kwargs) := by
    simp only [processPreamble, read_identifier_block, hs]
  simp only [processKwargHtml, hp, hi]
  rw [hfold]
  exact processHtml_succ_nomatch hno

/-- C3: parameterized-include placeholder substitution.  The include body
`{{ A }}-{{ B }}` processed with argument text `a=1, b=2` yields `1-2`
(keys are upper-cased on insertion) and with only `a=1` yields `1-`; in
general a bare `{{KEY}}` placeholder whose key is absent from the
parameter set is replaced by the empty string without raising an error. -/
theorem C3_kwarg_placeholder_substitution (env : Env) (f : Nat) (KEY : LC)
    (kwargs : ParamSet) (hn : KEY ≠ [])
    (hkc : ∀ c ∈ KEY, isCondArgChar c = true)
    (habs : dictGet kwargs KEY = none) :
    (kwargSubstitution env (f + 3) (chars ("\x7b\x7b A \x7d\x7d-\x7b\x7b B \x7d\x7d"))
      (chars ("a=1, b=2")) = some (.ok (chars ("1-2")))) ∧
    (kwargSubstitution env (f + 3) (chars ("\x7b\x7b A \x7d\x7d-\x7b\x7b B \x7d\x7d"))
      (chars ("a=1")) = some (.ok (chars ("1-")))) ∧
    (processKwargHtml env (f + 2) (chars ("\x7b\x7b") ++ KEY ++ chars ("\x7d\x7d")) kwargs =
      some (.ok [])) := by
  refine ⟨?_, ?_, ?_⟩
  · have hA := processKwargHtml_closed env f
      (chars ("\x7b\x7b A \x7d\x7d-\x7b\x7b B \x7d\x7d"))
      (parseKwargs (chars ("a=1, b=2")))
      (chars ("\x7b\x7b A \x7d\x7d-\x7b\x7b B \x7d\x7d")) (chars ("1-2"))
      (by decide) (by decide) (by decide) (by decide)
    simp only [kwargSubstitution, hA]
  · have hB := processKwargHtml_closed env f
      (chars ("\x7b\x7b A \x7d\x7d-\x7b\x7b B \x7d\x7d"))
      (parseKwargs (chars ("a=1")))
      (chars ("\x7b\x7b A \x7d\x7d-\x7b\x7b B \x7d\x7d")) (chars ("1-"))
      (by decide) (by decide) (by decide) (by decide)
    simp only [kwargSubstitution, hB]
  · have hne : chars ("\x7b\x7b") ++ KEY ++ chars ("\x7d\x7d") ≠ [] := by
      rw [show chars ("\x7b\x7b") ++ KEY ++ chars ("\x7d\x7d") =
        '\x7b' :: '\x7b' :: (KEY ++ ['\x7d', '\x7d']) from rfl]
      exact List.cons_ne_nil _ _
    have hnomem : ('\x7b' : Char) ∉ KEY ++ ['\x7d', '\x7d'] := by
      intro hmem
      rcases List.mem_append.mp hmem with h1 | h2
      · exact absurd (hkc _ h1) (by decide)
      · exact absurd h2 (by decide)
    have hm1 : matchIdentOpenAt (chars ("PREAMBLE"))
        ('\x7b' :: '\x7b' :: (KEY ++ ['\x7d', '\x7d'])) = false := rfl
    have hm2 : matchIdentOpenAt (chars ("PREAMBLE"))
        ('\x7b' :: (KEY ++ ['\x7d', '\x7d'])) = false := rfl
    have hs : searchIdentOpen (chars ("PREAMBLE"))
        (chars ("\x7b\x7b") ++ KEY ++ chars ("\x7d\x7d")) = none := by
      rw [show chars ("\x7b\x7b") ++ KEY ++ chars ("\x7d\x7d") =
        '\x7b' :: '\x7b' :: (KEY ++ ['\x7d', '\x7d']) from rfl,
        searchIdentOpen_cons_neg hm1, searchIdentOpen_cons_neg hm2,
        searchIdentOpen_none_of_no_open _ _ hnomem]
      rfl
    have hparen : ('(' : Char) ∉ chars ("\x7b\x7b") ++ KEY ++ chars ("\x7d\x7d") := by
      intro hmem
      rcases List.mem_append.mp hmem with h1 | h2
      · rcases List.mem_append.mp h1 with h3 | h4
        · exact absurd h3 (by decide)
        · exact absurd (hkc _ h4) (by decide)
      · exact absurd h2 (by decide)
    have hifdef : process_ifdefs (chars ("\x7b\x7b") ++ KEY ++ chars ("\x7d\x7d")) kwargs =
        some (.ok (chars ("\x7b\x7b") ++ KEY ++ chars ("\x7d\x7d"))) := by
      have h1 : ifdefLoop true kwargs
          ((chars ("\x7b\x7b") ++ KEY ++ chars ("\x7d\x7d")).length + 1)
          (chars ("\x7b\x7b") ++ KEY ++ chars ("\x7d\x7d")) =
          some (.ok (chars ("\x7b\x7b") ++ KEY ++ chars ("\x7d\x7d"))) :=
        ifdefLoop_succ_none (findIfdefMatch_none_of_no_paren hparen)
      simp only [process_ifdefs, h1]
      exact ifdefLoop_succ_none (findIfdefMatch_none_of_no_paren hparen)
    have hfold : (kwargPlaceholders (chars ("\x7b\x7b") ++ KEY ++ chars ("\x7d\x7d"))).foldl
        (fun acc m => replaceAll m.1 ((dictGet kwargs m.2).getD []) acc)
        (chars ("\x7b\x7b") ++ KEY ++ chars ("\x7d\x7d")) = [] := by
      rw [kwargPlaceholders_singleDoc KEY hn hkc]
      simp only [List.foldl_cons, List.foldl_nil]
      rw [habs]
      simp only [Option.getD_none]
      exact replaceAll_self_empty _ hne
    exact processKwargHtml_closed env f _ kwargs _ [] hs hifdef hfold rfl

/-- Concrete instance of `C3_kwarg_placeholder_substitution`: the body
`{{ A }}-{{ B }}` with arguments `a=1, b=2` gives `1-2`, with only `a=1`
gives `1-`, and `{{MISSING}}` with an empty parameter set gives
the empty string. -/
theorem C3_kwarg_placeholder_substitution_witness :
    (kwargSubstitution emptyEnv 3 (chars ("\x7b\x7b A \x7d\x7d-\x7b\x7b B \x7d\x7d"))
      (chars ("a=1, b=2")) = some (.ok (chars ("1-2")))) ∧
    (kwargSubstitution emptyEnv 3 (chars ("\x7b\x7b A \x7d\x7d-\x7b\x7b B \x7d\x7d"))
      (chars ("a=1")) = some (.ok (chars ("1-")))) ∧
    (processKwargHtml emptyEnv 2 (chars ("\x7b\x7b") ++ chars ("MISSING") ++ chars ("\x7d\x7d"))
      [] = some (.ok [])) :=
  C3_kwarg_placeholder_substitution emptyEnv 0 (chars ("MISSING")) []
    (by decide) (by decide) (by decide)

theorem camelPartsGo_append_lower (s : LC) :
    ∀ (rest : LC), (∀ c ∈ rest, c.isUpper = false) → ∀ (part : LC),
      camelPartsGo part (rest ++ s) = camelPartsGo (part ++ rest) s := by
  intro rest
  induction rest with
  | nil => intro _ part; rw [List.nil_append, List.append_nil]
  | cons c r ih =>
    intro hr part
    have hcl : c.isUpper = false := hr c (List.mem_cons_self c r)
    rw [List.cons_append]
    simp only [camelPartsGo, hcl, Bool.false_eq_true, if_false]
    rw [ih (fun d hd => hr d (List.mem_cons_of_mem c hd)) (part ++ [c])]
    congr 1
    simp

theorem camelPartsGo_segments :
    ∀ (segs : List (Char × LC)),
      (∀ p ∈ segs, p.1.isUpper = true ∧ ∀ d ∈ p.2, d.isUpper = false) →
      ∀ (part : LC), part ≠ [] →
      camelPartsGo part (List.flatten (segs.map (fun p => p.1 :: p.2))) =
        part :: segs.map (fun p => p.1.toLower :: p.2) := by
  intro segs
  induction segs with
  | nil =>
    intro _ part hp
    simp only [List.map_nil, List.flatten_nil, camelPartsGo, name_isEmpty_false hp,
      Bool.false_eq_true, if_false]
  | cons pr segs' ih =>
    intro hsegs part hp
    obtain ⟨U, rest⟩ := pr
    have hU : U.isUpper = true := (hsegs (U, rest) (List.mem_cons_self _ _)).1
    have hrest : ∀ d ∈ rest, d.isUpper = false := (hsegs (U, rest) (List.mem_cons_self _ _)).2
    simp only [List.map_cons, List.flatten_cons]
    rw [List.cons_append]
    simp only [camelPartsGo, hU, if_true, name_isEmpty_false hp, Bool.false_eq_true, if_false]
    rw [camelPartsGo_append_lower _ rest hrest [U.toLower], List.singleton_append,
      ih (fun p hp2 => hsegs p (List.mem_cons_of_mem _ hp2)) (U.toLower :: rest)
        (List.cons_ne_nil _ _)]

/-- The camel-case splitter: a tag assembled from segments, each an
uppercase letter followed by non-uppercase characters, splits back into
exactly those segments with their leading characters lowered. -/
theorem camelParts_segments (segs : List (Char × LC))
    (hsegs : ∀ p ∈ segs, p.1.isUpper = true ∧ ∀ d ∈ p.2, d.isUpper = false) :
    camelParts (List.flatten (segs.map (fun p => p.1 :: p.2))) =
      segs.map (fun p => p.1.toLower :: p.2) := by
  cases segs with
  | nil => rfl
  | cons pr segs' =>
    obtain ⟨U, rest⟩ := pr
    have hU : U.isUpper = true := (hsegs (U, rest) (List.mem_cons_self _ _)).1
    have hrest : ∀ d ∈ rest, d.isUpper = false := (hsegs (U, rest) (List.mem_cons_self _ _)).2
    simp only [List.map_cons, List.flatten_cons, camelParts]
    rw [List.cons_append]
    simp only [camelPartsGo, hU, if_true, List.isEmpty_nil]
    rw [camelPartsGo_append_lower _ rest hrest [U.toLower], List.singleton_append,
      camelPartsGo_segments segs' (fun p hp2 => hsegs p (List.mem_cons_of_mem _ hp2))
        (U.toLower :: rest) (List.cons_ne_nil _ _)]

theorem tagCandidates_cons_slash (t : LC) :
    tagCandidates ('/' :: t) =
      [List.intercalate ['/'] (camelParts (t ++ chars ("End"))),
       List.intercalate ['/'] (camelParts (t ++ chars ("End"))) ++ chars ("/start"),
       List.intercalate ['_'] (camelParts (t ++ chars ("End")))] := rfl

theorem tagCandidates_cons_ne (d : Char) (u : LC) (hd : d ≠ '/') :
    tagCandidates (d :: u) =
      [List.intercalate ['/'] (camelParts (d :: u)),
       List.intercalate ['/'] (camelParts (d :: u)) ++ chars ("/start"),
       List.intercalate ['_'] (camelParts (d :: u))] := by
  simp only [tagCandidates]
  split
  · rename_i t heq
    injection heq with h1 h2
    exact absurd h1 hd
  · rfl

theorem firstCandidate_cons_ok {env : Env} {c : LC} {rest : List LC} {h : LC}
    (hok : includeRaw env c = .ok h) :
    firstCandidate env (c :: rest) = some h := by
  simp only [firstCandidate, hok]

theorem firstCandidate_cons_err {env : Env} {c : LC} {rest : List LC} {e : Err}
    (he : includeRaw env c = .error e) :
    firstCandidate env (c :: rest) = firstCandidate env rest := by
  simp only [firstCandidate, he]

/-- C4: custom-tag translation.  A closing tag name starting with `/` has the
slash removed and `End` appended before camel-case splitting; a camel-case
name splits at its uppercase letters into lowercase segments; for a tag the
three candidate include targets tried are the segments joined by `/`, that
path plus `/start`, and the segments joined by `_`, in that order; and the
first candidate whose file loads wins while a run with no loadable candidate
aborts with the missing-include message. -/
theorem C4_custom_tag_translation (env : Env) (f : Nat) (args : LC) (c : Char) (t' : LC)
    (tag h p1 p2 p3 : LC) (e1 e2 e3 : Err) (segs : List (Char × LC))
    (hc : c ≠ '/')
    (hsegs : ∀ p ∈ segs, p.1.isUpper = true ∧ ∀ d ∈ p.2, d.isUpper = false)
    (hcand : tagCandidates tag = [p1, p2, p3]) :
    (tagCandidates ('/' :: (c :: t')) = tagCandidates ((c :: t') ++ chars ("End"))) ∧
    (camelParts (List.flatten (segs.map (fun p => p.1 :: p.2))) =
      segs.map (fun p => p.1.toLower :: p.2)) ∧
    (∀ (d : Char) (u : LC), d ≠ '/' →
      tagCandidates (d :: u) =
        [List.intercalate ['/'] (camelParts (d :: u)),
         List.intercalate ['/'] (camelParts (d :: u)) ++ chars ("/start"),
         List.intercalate ['_'] (camelParts (d :: u))]) ∧
    ((includeRaw env p1 = .ok h →
        htmlFileSubstitution env (f + 1) tag args = kwargSubstitution env f h args) ∧
     (includeRaw env p1 = .error e1 → includeRaw env p2 = .ok h →
        htmlFileSubstitution env (f + 1) tag args = kwargSubstitution env f h args) ∧
     (includeRaw env p1 = .error e1 → includeRaw env p2 = .error e2 →
        includeRaw env p3 = .ok h →
        htmlFileSubstitution env (f + 1) tag args = kwargSubstitution env f h args) ∧
     (includeRaw env p1 = .error e1 → includeRaw env p2 = .error e2 →
        includeRaw env p3 = .error e3 →
        htmlFileSubstitution env (f + 1) tag args =
          some (.error (.systemExit (chars ("Missing include file for tag: ") ++ tag))))) := by
  refine ⟨?_, camelParts_segments segs hsegs, fun d u hd => tagCandidates_cons_ne d u hd,
    ?_, ?_, ?_, ?_⟩
  · rw [tagCandidates_cons_slash (c :: t'), List.cons_append,
      tagCandidates_cons_ne c (t' ++ chars ("End")) hc]
  · intro hok
    have hfc : firstCandidate env [p1, p2, p3] = some h := firstCandidate_cons_ok hok
    simp only [htmlFileSubstitution, hcand, hfc]
  · intro he1 hok
    have hfc : firstCandidate env [p1, p2, p3] = some h := by
      rw [firstCandidate_cons_err he1]
      exact firstCandidate_cons_ok hok
    simp only [htmlFileSubstitution, hcand, hfc]
  · intro he1 he2 hok
    have hfc : firstCandidate env [p1, p2, p3] = some h := by
      rw [firstCandidate_cons_err he1, firstCandidate_cons_err he2]
      exact firstCandidate_cons_ok hok
    simp only [htmlFileSubstitution, hcand, hfc]
  · intro he1 he2 he3
    have hfc : firstCandidate env [p1, p2, p3] = none := by
      rw [firstCandidate_cons_err he1, firstCandidate_cons_err he2,
        firstCandidate_cons_err he3]
      rfl
    simp only [htmlFileSubstitution, hcand, hfc]

/-- Concrete instance of `C4_custom_tag_translation`: `/Form` maps to the
candidates of `FormEnd`; `FormField` splits to `form`/`field` and, with only
the file `form_field` present, resolves through the third (snake) candidate,
while with no files at all the run aborts with the missing-include
message. -/
theorem C4_custom_tag_translation_witness :
    (tagCandidates ('/' :: ('F' :: chars ("orm"))) =
      tagCandidates (('F' :: chars ("orm")) ++ chars ("End"))) ∧
    (camelParts (List.flatten ([('F', chars ("orm")), ('F', chars ("ield"))].map
        (fun p => p.1 :: p.2))) =
      [('F', chars ("orm")), ('F', chars ("ield"))].map (fun p => p.1.toLower :: p.2)) ∧
    (htmlFileSubstitution
        { fs := [(chars ("form_field"), chars ("X"))], constants := [],
          fetch := fun _ => [], uniqueString := [], preambleExec := fun _ k => k } 1
        (chars ("FormField")) [] =
      kwargSubstitution
        { fs := [(chars ("form_field"), chars ("X"))], constants := [],
          fetch := fun _ => [], uniqueString := [], preambleExec := fun _ k => k } 0
        (chars ("X")) []) ∧
    (htmlFileSubstitution emptyEnv 1 (chars ("FormField")) [] =
      some (.error (.systemExit
        (chars ("Missing include file for tag: ") ++ chars ("FormField"))))) := by
  have H1 := C4_custom_tag_translation
    { fs := [(chars ("form_field"), chars ("X"))], constants := [],
      fetch := fun _ => [], uniqueString := [], preambleExec := fun _ k => k } 0 []
    'F' (chars ("orm")) (chars ("FormField")) (chars ("X"))
    (chars ("form/field")) (chars ("form/field/start")) (chars ("form_field"))
    (.fileNotFound (chars ("form/field.html")))
    (.fileNotFound (chars ("form/field/start.html")))
    (.fileNotFound (chars ("form_field.html")))
    [('F', chars ("orm")), ('F', chars ("ield"))]
    (by decide) (by decide) (by decide)
  have H2 := C4_custom_tag_translation emptyEnv 0 []
    'F' (chars ("orm")) (chars ("FormField")) []
    (chars ("form/field")) (chars ("form/field/start")) (chars ("form_field"))
    (.fileNotFound (chars ("form/field.html")))
    (.fileNotFound (chars ("form/field/start.html")))
    (.fileNotFound (chars ("form_field.html")))
    [('F', chars ("orm")), ('F', chars ("ield"))]
    (by decide) (by decide) (by decide)
  exact ⟨H1.1, H1.2.1,
    H1.2.2.2.2.2.1 (by decide) (by decide) (by decide),
    H2.2.2.2.2.2.2 (by decide) (by decide) (by decide)⟩

end Build
